import Mathlib

/-!
Verification of `tools/parse_latency_logcat.py`: the latency-logcat event
correlation and statistics engine.

Modelling conventions, used throughout:
* Python `int` is `ℤ` (timestamps), `float` arithmetic is modelled exactly
  over `ℚ` (the source only divides by `1e6`, averages, and compares, all of
  which are exact on the rationals).
* A Python `dict` is an insertion-ordered association list with unique keys:
  `dictSet` overwrites in place, `dictGet` looks up, `dictPop` removes,
  mirroring `d[k] = v`, `d.get(k)` and `d.pop(k, None)`.
* Raw log lines are `List Char`; `in`-containment, `split`, `strip` and
  `find` are modelled character by character.
* Python's `int(...)` literal parsing is modelled for optional surrounding
  whitespace, an optional sign and a nonempty digit string (the source never
  feeds it underscore-grouped literals).
* Python's `round` (ties to even) is `pythonRound`.
-/

/-- Python `d.get(k)` on an association list: first binding wins (the lists
built below always have unique keys). -/
def dictGet {K V : Type} [DecidableEq K] (k : K) : List (K × V) → Option V
  | [] => none
  | (k', v) :: rest => if k' = k then some v else dictGet k rest

/-- Python `d.get(k, default)`. -/
def dictGetD {K V : Type} [DecidableEq K] (k : K) (d : V) (m : List (K × V)) : V :=
  (dictGet k m).getD d

/-- Python `d[k] = v`: overwrite in place, append if the key is new. -/
def dictSet {K V : Type} [DecidableEq K] (k : K) (v : V) : List (K × V) → List (K × V)
  | [] => [(k, v)]
  | (k', v') :: rest => if k' = k then (k, v) :: rest else (k', v') :: dictSet k v rest

/-- Python `d.pop(k, None)`: drop the binding for `k` (unique in our dicts). -/
def dictPop {K V : Type} [DecidableEq K] (k : K) : List (K × V) → List (K × V)
  | [] => []
  | (k', v') :: rest => if k' = k then rest else (k', v') :: dictPop k rest

/-- Python `d.setdefault(k, []).append(x)`: append `x` to the list stored at
`k`, starting a new singleton bucket at the end when `k` is new. -/
def dictAppend {K V : Type} [DecidableEq K] (k : K) (x : V) :
    List (K × List V) → List (K × List V)
  | [] => [(k, [x])]
  | (k', vs) :: rest =>
    if k' = k then (k', vs ++ [x]) :: rest else (k', vs) :: dictAppend k x rest

/-- Python `pat in s` / `s.find(pat)`: the suffix of `s` starting at the first
occurrence of `pat`, if any. -/
def fromFirst (pat : List Char) : List Char → Option (List Char)
  | [] => if pat.isEmpty then some [] else none
  | c :: rest =>
    if pat.isPrefixOf (c :: rest) then some (c :: rest) else fromFirst pat rest

/-- Python `pat in s`. -/
def containsSub (pat s : List Char) : Bool :=
  (fromFirst pat s).isSome

/-- Python `s.split(pat, 1)[1]`: everything after the first occurrence of
`pat`. -/
def afterFirst (pat s : List Char) : Option (List Char) :=
  (fromFirst pat s).map (·.drop pat.length)

/-- Python `s.strip()`: drop whitespace at both ends. -/
def stripChars (cs : List Char) : List Char :=
  ((cs.dropWhile Char.isWhitespace).reverse.dropWhile Char.isWhitespace).reverse

/-- Value of a nonempty decimal digit string. -/
def digitsVal (cs : List Char) : ℤ :=
  cs.foldl (fun acc c => acc * 10 + ((c.toNat : ℤ) - 48)) 0

/-- Python `int(string)` as used by `_to_int`: optional surrounding
whitespace, optional sign, then a nonempty run of decimal digits. -/
def toIntChars (cs : List Char) : Option ℤ :=
  let t := stripChars cs
  let core : List Char → Option ℤ := fun ds =>
    if ds ≠ [] ∧ ds.all Char.isDigit then some (digitsVal ds) else none
  match t with
  | '-' :: rest => (core rest).map (fun n => -n)
  | '+' :: rest => core rest
  | _ => core t

/-- `_to_int(v)`: `None` propagates, otherwise parse or return `None`. -/
def _to_int (v : Option String) : Option ℤ :=
  match v with
  | none => none
  | some s => toIntChars s.data

/-- `Event`: one parsed instrumentation occurrence (`ev`, `t`, open fields). -/
structure Event where
  ev : String
  t : ℤ
  fields : List (String × String)
deriving DecidableEq

/-- `Event.get`: `self.fields.get(k)`. -/
def Event.get (e : Event) (k : String) : Option String :=
  dictGet k e.fields

/-- `Event.geti`: `_to_int(self.get(k))`. -/
def Event.geti (e : Event) (k : String) : Option ℤ :=
  _to_int (e.get k)

/-- One `key=value` token: skip it when it has no `=`, otherwise split on the
first `=` (Python `p.split("=", 1)`), so the value may itself contain `=`. -/
def splitKV (p : List Char) : Option (String × String) :=
  if '=' ∈ p then
    some (⟨p.takeWhile (· ≠ '=')⟩, ⟨(p.dropWhile (· ≠ '=')).drop 1⟩)
  else none

/-- One iteration of the token loop: `if "=" not in p: continue` then
`kv[k] = v`. -/
def kvStep (kv : List (String × String)) (p : List Char) :
    List (String × String) :=
  match splitKV p with
  | none => kv
  | some (k, v) => dictSet k v kv

/-- The `kv` dict built from the whitespace-split tokens: later occurrences of
a key overwrite earlier ones (`kv[k] = v` in a loop). -/
def kvOfParts (parts : List (List Char)) : List (String × String) :=
  parts.foldl kvStep []

/-- The key=value segment isolated from a raw line: after `"latency:"` when
present, else from the first `"ev="`; stripped. -/
def segmentOf (raw : List Char) : List Char :=
  if containsSub "latency:".data raw then
    stripChars ((afterFirst "latency:".data raw).getD [])
  else
    match fromFirst "ev=".data raw with
    | some s => stripChars s
    | none => raw

/-- The nonempty whitespace-split tokens of a raw line's segment. -/
def partsOf (raw : List Char) : List (List Char) :=
  (List.splitOn ' ' (segmentOf raw)).filter (· ≠ [])

/-- The `kv` dict of a raw line. -/
def lineKV (raw : List Char) : List (String × String) :=
  kvOfParts (partsOf raw)

/-- Loop body of `parse_latency_lines`, for one raw line: reject lines without
the `"latency"` marker, reject lines missing `"ev="` or `" t="`, then build
the token dict and require an `ev` entry and an integer `t` entry. -/
def parseLatencyLine (raw : List Char) : Option Event :=
  if ¬ containsSub "latency".data raw then none
  else if ¬ containsSub "ev=".data raw ∨ ¬ containsSub " t=".data raw then none
  else
    let kv := lineKV raw
    match dictGet "ev" kv, _to_int (dictGet "t" kv) with
    | some ev, some t => some ⟨ev, t, dictPop "t" (dictPop "ev" kv)⟩
    | some _, none => none
    | none, _ => none

/-- `parse_latency_lines` over the already-split lines of a file. -/
def parse_latency_lines (lines : List (List Char)) : List Event :=
  lines.filterMap parseLatencyLine

/-- `ns_to_ms`: divide nanoseconds by `1e6` (exact over `ℚ`). -/
def ns_to_ms (ns : ℤ) : ℚ :=
  (ns : ℚ) / 1000000

/-- Python `round` on an exact rational: nearest integer, ties to even, as
`int(round(x))` behaves in the source. -/
def pythonRound (q : ℚ) : ℤ :=
  if q - ⌊q⌋ < 1/2 then ⌊q⌋
  else if 1/2 < q - ⌊q⌋ then ⌊q⌋ + 1
  else if ⌊q⌋ % 2 = 0 then ⌊q⌋ else ⌊q⌋ + 1

/-- `pct(p)` from `stats_ms`: nearest-rank percentile over the sorted
millisecond values, index `round(p/100 * (n-1))` clamped to `[0, n-1]`. -/
def pct (ms : List ℚ) (p : ℚ) : ℚ :=
  if ms = [] then 0
  else if ms.length = 1 then ms.getD 0 0
  else
    let k : ℤ := pythonRound (p / 100 * ((ms.length : ℚ) - 1))
    (ms.getD (max 0 (min ((ms.length : ℤ) - 1) k)).toNat 0)

/-- `StatsSummary`: the dict returned by `stats_ms`, all values in ms. -/
structure StatsSummary where
  count : ℕ
  avg_ms : ℚ
  p50_ms : ℚ
  p90_ms : ℚ
  p99_ms : ℚ
  min_ms : ℚ
  max_ms : ℚ
deriving DecidableEq

/-- `stats_ms(values_ns)`: `None` on empty input, otherwise sort the
millisecond conversions and report count / mean / percentiles / min / max. -/
def stats_ms (values_ns : List ℤ) : Option StatsSummary :=
  if values_ns = [] then none
  else
    let ms := (values_ns.map ns_to_ms).mergeSort (fun a b => decide (a ≤ b))
    some
      { count := ms.length
        avg_ms := ms.sum / (ms.length : ℚ)
        p50_ms := pct ms 50
        p90_ms := pct ms 90
        p99_ms := pct ms 99
        min_ms := ms.getD 0 0
        max_ms := ms.getD (ms.length - 1) 0 }

/-- The `prev is None or e.t < prev` update shared by every correlation loop:
keep the smallest timestamp seen per key. -/
def minUpdate {K : Type} [DecidableEq K] (m : List (K × ℤ)) (k : K) (t : ℤ) :
    List (K × ℤ) :=
  match dictGet k m with
  | none => dictSet k t m
  | some prev => if t < prev then dictSet k t m else m

/-- Accumulator view of the `prev is None or t < prev` update: running
minimum as an `Option`. -/
def omin (o : Option ℤ) (t : ℤ) : Option ℤ :=
  some (match o with | none => t | some p => min p t)

/-- One iteration of the event scan shared by `_group_delays_by_key`,
`analyze_scheduler_queue_delay` and `analyze_fragment_queue_wait` (the source
repeats this loop verbatim three times): skip events of other kinds, skip
events without a key, and record the earliest timestamp on the matching
side. -/
def corrStep {K : Type} [DecidableEq K] (ev_start ev_end : String)
    (make_key : Event → Option K) (acc : List (K × ℤ) × List (K × ℤ))
    (e : Event) : List (K × ℤ) × List (K × ℤ) :=
  if ¬ (e.ev = ev_start ∨ e.ev = ev_end) then acc
  else
    match make_key e with
    | none => acc
    | some k =>
      if e.ev = ev_start then (minUpdate acc.1 k e.t, acc.2)
      else (acc.1, minUpdate acc.2 k e.t)

/-- The event scan of `_group_delays_by_key`: build the `start_t` / `end_t`
maps, routing each event of the two kinds through `make_key`. -/
def groupDelayMaps {K : Type} [DecidableEq K] (events : List Event)
    (ev_start ev_end : String) (make_key : Event → Option K) :
    List (K × ℤ) × List (K × ℤ) :=
  events.foldl (corrStep ev_start ev_end make_key) ([], [])

/-- One iteration of the collection loop of `_group_delays_by_key`. -/
def collectStep {K : Type} [DecidableEq K] (keyStr : K → String)
    (end_t : List (K × ℤ)) (acc : List ℤ × List (String × List ℤ))
    (kt : K × ℤ) : List ℤ × List (String × List ℤ) :=
  match dictGet kt.1 end_t with
  | none => acc
  | some t1 =>
    if t1 - kt.2 < 0 then acc
    else (acc.1 ++ [t1 - kt.2], dictAppend (keyStr kt.1) (t1 - kt.2) acc.2)

/-- The collection loop of `_group_delays_by_key`: for each started key with a
matching end, keep `delta = end - start` unless negative, also bucketing per
group label (`str(k)` in the source, rendered here by `keyStr`). -/
def collectDelays {K : Type} [DecidableEq K] (keyStr : K → String)
    (start_t end_t : List (K × ℤ)) : List ℤ × List (String × List ℤ) :=
  start_t.foldl (collectStep keyStr end_t) ([], [])

/-- `_group_delays_by_key(events, ev_start, ev_end, make_key)`. -/
def _group_delays_by_key {K : Type} [DecidableEq K] (events : List Event)
    (ev_start ev_end : String) (make_key : Event → Option K)
    (keyStr : K → String) : List ℤ × List (String × List ℤ) :=
  let maps := groupDelayMaps events ev_start ev_end make_key
  collectDelays keyStr maps.1 maps.2

/-- `first_by_ev(events, ev)`: first event of the given kind in list order. -/
def first_by_ev (events : List Event) (ev : String) : Option Event :=
  events.find? (fun e => e.ev = ev)

/-- One iteration of the `build_index` loop: an event whose field is missing
is skipped, otherwise it is appended to that field value's bucket. -/
def indexStep (key : String) (idx : List (String × List Event)) (e : Event) :
    List (String × List Event) :=
  match e.get key with
  | none => idx
  | some v => dictAppend v e idx

/-- `build_index(events, key)`: bucket events by the value of one field,
keeping file order inside each bucket and first-seen order of buckets. -/
def build_index (events : List Event) (key : String) :
    List (String × List Event) :=
  events.foldl (indexStep key) []

/-- The delta a per-id analysis appends for one stage pair: `end.t - start.t`
of the first events of each kind, with no non-negativity filter. -/
def stageDelta (evs : List Event) (ev_start ev_end : String) : Option ℤ :=
  match first_by_ev evs ev_start, first_by_ev evs ev_end with
  | some a, some b => some (b.t - a.t)
  | _, _ => none

/-- `analyze_sender_by_fid`: the three delta lists
(`cam_frame -> enc_out`, `enc_out -> video_payload`,
`video_payload -> mesh_send_call`), grouped by `fid`. -/
def analyze_sender_by_fid (events : List Event) :
    List ℤ × List ℤ × List ℤ :=
  let by_fid := build_index events "fid"
  ((by_fid.filterMap fun kv => stageDelta kv.2 "cam_frame" "enc_out"),
   (by_fid.filterMap fun kv => stageDelta kv.2 "enc_out" "video_payload"),
   (by_fid.filterMap fun kv => stageDelta kv.2 "video_payload" "mesh_send_call"))

/-- `analyze_receiver_by_seq`: delta lists `rx_video -> dec_in` and
`dec_in -> render_cb`, grouped by `seq`. -/
def analyze_receiver_by_seq (events : List Event) : List ℤ × List ℤ :=
  let by_seq := build_index events "seq"
  ((by_seq.filterMap fun kv => stageDelta kv.2 "rx_video" "dec_in"),
   (by_seq.filterMap fun kv => stageDelta kv.2 "dec_in" "render_cb"))

/-- `analyze_fragments_by_id`: delta lists `frag_create -> frag_split`,
`frag_split -> frag_emit` and `reasm_add -> reasm_done`, grouped by
`fragId`. -/
def analyze_fragments_by_id (events : List Event) :
    List ℤ × List ℤ × List ℤ :=
  let by_frag := build_index events "fragId"
  ((by_frag.filterMap fun kv => stageDelta kv.2 "frag_create" "frag_split"),
   (by_frag.filterMap fun kv => stageDelta kv.2 "frag_split" "frag_emit"),
   (by_frag.filterMap fun kv => stageDelta kv.2 "reasm_add" "reasm_done"))

/-- `key_emit_tx(e)` from `analyze_fragment_queue_wait`: the `(fragId, idx)`
pair, or `None` when either component is missing. -/
def key_emit_tx (e : Event) : Option (String × ℤ) :=
  match e.get "fragId", e.geti "idx" with
  | some frag_id, some idx => some (frag_id, idx)
  | _, _ => none

/-- The `frag_emit` / `ble_tx_call` earliest-timestamp maps of
`analyze_fragment_queue_wait` (the same scan loop, with the fragment kinds
and `key_emit_tx`). -/
def fragQueueMaps (events : List Event) :
    List ((String × ℤ) × ℤ) × List ((String × ℤ) × ℤ) :=
  events.foldl (corrStep "frag_emit" "ble_tx_call" key_emit_tx) ([], [])

/-- One iteration of the `tx_addr` join loop of
`analyze_fragment_queue_wait`. -/
def txAddrStep (m : List ((String × ℤ) × String)) (e : Event) :
    List ((String × ℤ) × String) :=
  if e.ev ≠ "ble_tx_call" then m
  else
    match key_emit_tx e with
    | none => m
    | some k =>
      match e.get "addr" with
      | none => m
      | some addr => dictSet k addr m

/-- The `tx_addr` join of `analyze_fragment_queue_wait`: the `addr` field of
the last keyed `ble_tx_call` per `(fragId, idx)`. -/
def fragQueueTxAddr (events : List Event) : List ((String × ℤ) × String) :=
  events.foldl txAddrStep []

/-- One iteration of the matching loop of `analyze_fragment_queue_wait`. -/
def fragCollectStep (tx_t : List ((String × ℤ) × ℤ))
    (tx_addr : List ((String × ℤ) × String))
    (acc : List ℤ × List (String × List ℤ)) (kt : (String × ℤ) × ℤ) :
    List ℤ × List (String × List ℤ) :=
  match dictGet kt.1 tx_t with
  | none => acc
  | some t_tx =>
    if t_tx - kt.2 < 0 then acc
    else
      (acc.1 ++ [t_tx - kt.2],
       dictAppend (dictGetD kt.1 "(unknown)" tx_addr) (t_tx - kt.2) acc.2)

/-- `analyze_fragment_queue_wait`: matched queue delays plus the per-address
buckets, negative deltas discarded. -/
def analyze_fragment_queue_wait (events : List Event) :
    List ℤ × List (String × List ℤ) :=
  let maps := fragQueueMaps events
  let tx_addr := fragQueueTxAddr events
  maps.1.foldl (fragCollectStep maps.2 tx_addr) ([], [])

/-- A scheduler correlation key: `(addr, priority, transferId, fragId, idx)`
when the fragment components are derivable, else `(addr, priority,
transferId)`; Python tuples of different lengths never compare equal, so the
two shapes are distinct constructors. -/
inductive SchedKey where
  | full (addr prio : String) (transferId : Option String)
      (fragId : String) (idx : ℤ) : SchedKey
  | base (addr prio : String) (transferId : Option String) : SchedKey
deriving DecidableEq

/-- `_match_key(e)` from `analyze_scheduler_queue_delay`: requires `addr` and
`priority`; `transferId` may be absent and is kept as-is. -/
def _match_key (e : Event) : Option SchedKey :=
  match e.get "addr", e.get "priority" with
  | some addr, some prio =>
    match e.get "fragId", e.geti "idx" with
    | some frag_id, some idx =>
      some (SchedKey.full addr prio (e.get "transferId") frag_id idx)
    | _, _ => some (SchedKey.base addr prio (e.get "transferId"))
  | _, _ => none

/-- The address component of a scheduler key (`k[0]`). -/
def SchedKey.addrOf : SchedKey → String
  | .full addr _ _ _ _ => addr
  | .base addr _ _ => addr

/-- The priority component of a scheduler key (`k[1]`). -/
def SchedKey.prioOf : SchedKey → String
  | .full _ prio _ _ _ => prio
  | .base _ prio _ => prio

/-- The `sched_enq` / `sched_deq` earliest-timestamp maps of
`analyze_scheduler_queue_delay` (the same scan loop, with the scheduler kinds
and `_match_key`). -/
def schedMaps (events : List Event) :
    List (SchedKey × ℤ) × List (SchedKey × ℤ) :=
  events.foldl (corrStep "sched_enq" "sched_deq" _match_key) ([], [])

/-- One iteration of the matching loop of `analyze_scheduler_queue_delay`. -/
def schedCollectStep (deq : List (SchedKey × ℤ))
    (acc : List ℤ × List (String × List ℤ) × List (String × List ℤ))
    (kt : SchedKey × ℤ) :
    List ℤ × List (String × List ℤ) × List (String × List ℤ) :=
  match dictGet kt.1 deq with
  | none => acc
  | some t_deq =>
    if t_deq - kt.2 < 0 then acc
    else
      (acc.1 ++ [t_deq - kt.2],
       dictAppend kt.1.addrOf (t_deq - kt.2) acc.2.1,
       dictAppend kt.1.prioOf (t_deq - kt.2) acc.2.2)

/-- `analyze_scheduler_queue_delay`: matched queue delays plus the per-address
and per-priority buckets, negative deltas discarded. -/
def analyze_scheduler_queue_delay (events : List Event) :
    List ℤ × List (String × List ℤ) × List (String × List ℤ) :=
  let maps := schedMaps events
  maps.1.foldl (schedCollectStep maps.2) ([], [], [])

/-- The sender pipeline marker kinds of `infer_role`. -/
def sender_markers : List String :=
  ["cam_frame", "enc_out", "video_payload", "mesh_send_call", "tx_video"]

/-- The receiver pipeline marker kinds of `infer_role`. -/
def receiver_markers : List String :=
  ["rx_video", "dec_in", "render_cb"]

/-- The relay/forwarding marker kinds of `infer_role`. -/
def relay_markers : List String :=
  ["relay_rx", "relay_tx", "mesh_relay", "mesh_forward", "forward_video",
   "route_forward", "sfwd"]

/-- `sum(counts.get(k, 0) for k in markers)`. -/
def markerScore (markers : List String) (counts : List (String × ℕ)) : ℕ :=
  (markers.map fun k => dictGetD k 0 counts).sum

/-- Python `s.startswith(pre)`. -/
def strStartsWith (s pre : String) : Bool :=
  pre.data.isPrefixOf s.data

/-- `infer_role(counts)`: heuristic role classifier, translated line by line
from the source (including the redundant `and not has_sender` guard). -/
def infer_role (counts : List (String × ℕ)) : String :=
  let sender_score := markerScore sender_markers counts
  let receiver_score := markerScore receiver_markers counts
  let relay_score := markerScore relay_markers counts
  let has_sender := sender_score > 0
  let has_receiver := receiver_score > 0
  if has_sender ∧ has_receiver then "both"
  else if has_sender then "sender"
  else if has_receiver then
    if relay_score > 0 ∧ ¬ has_sender then "relay" else "receiver"
  else if (counts.map Prod.fst).any (fun k => strStartsWith k "reasm_") ∧
      (counts.map Prod.fst).any (fun k => strStartsWith k "frag_") then "relay"
  else "unknown"

/-- Modelled from the spec's role-inference decision table (section 4.4):
first match wins among `both`, `sender`, `relay`/`receiver`, the
fragmentation-and-reassembly fallback, and `unknown`. Stated from the spec's
words to be compared against `infer_role`. -/
def specRole (counts : List (String × ℕ)) : String :=
  if markerScore sender_markers counts > 0 ∧ markerScore receiver_markers counts > 0
  then "both"
  else if markerScore sender_markers counts > 0 then "sender"
  else if markerScore receiver_markers counts > 0 then
    if markerScore relay_markers counts > 0 then "relay" else "receiver"
  else if (counts.map Prod.fst).any (fun k => strStartsWith k "frag_") ∧
      (counts.map Prod.fst).any (fun k => strStartsWith k "reasm_") then "relay"
  else "unknown"

/-- Python string `<`: strict lexicographic comparison by code point. -/
def charListLt : List Char → List Char → Bool
  | [], [] => false
  | [], _ :: _ => true
  | _ :: _, [] => false
  | a :: as, b :: bs => if a < b then true else if b < a then false else charListLt as bs

/-- Python string `<` on labels. -/
def strLt (s t : String) : Bool :=
  charListLt s.data t.data

/-- Python string `<=` on labels. -/
def strLe (s t : String) : Bool :=
  ! strLt t s

/-- `score = {"avg": ..., ...}.get(sort_by, s["p90_ms"])` from
`_print_group_table`. -/
def metricScore (sort_by : String) (s : StatsSummary) : ℚ :=
  if sort_by = "avg" then s.avg_ms
  else if sort_by = "p50" then s.p50_ms
  else if sort_by = "p90" then s.p90_ms
  else if sort_by = "p99" then s.p99_ms
  else if sort_by = "max" then s.max_ms
  else s.p90_ms

/-- Sort order of `rows.sort(key=lambda r: (-r[0], r[1]))`: descending score,
ties broken by label ascending. -/
def rowLe (a b : ℚ × String × StatsSummary) : Bool :=
  decide (b.1 < a.1) || (decide (a.1 = b.1) && strLe a.2.1 b.2.1)

/-- The `rows` list of `_print_group_table`: one `(score, key, stats)` row
per group with data, skipping groups whose stats are `None`. -/
def rowsOf (per : List (String × List ℤ)) (sort_by : String) :
    List (ℚ × String × StatsSummary) :=
  per.filterMap fun kv =>
    (stats_ms kv.2).map fun s => (metricScore sort_by s, kv.1, s)

/-- The row construction, ranking and truncation of `_print_group_table`
(the spec's `rank_groups`): summarize each group, drop empty ones, sort by
`(-score, label)` and keep the first `limit` rows. -/
def rank_groups (per : List (String × List ℤ)) (sort_by : String)
    (limit : ℕ) : List (ℚ × String × StatsSummary) :=
  ((rowsOf per sort_by).mergeSort rowLe).take limit

/-! ### Association-list (Python dict) lemmas -/

theorem dictGet_set_self {K V : Type} [DecidableEq K] (k : K) (v : V)
    (m : List (K × V)) : dictGet k (dictSet k v m) = some v := by
  induction m with
  | nil => simp [dictGet, dictSet]
  | cons p rest ih =>
    by_cases h : p.1 = k
    · simp [dictSet, h, dictGet]
    · simp [dictSet, h, dictGet, ih]

theorem dictGet_set_other {K V : Type} [DecidableEq K] {k k' : K} (v : V)
    (m : List (K × V)) (h : k' ≠ k) :
    dictGet k (dictSet k' v m) = dictGet k m := by
  induction m with
  | nil => simp [dictGet, dictSet, h]
  | cons p rest ih =>
    obtain ⟨k₁, v₁⟩ := p
    by_cases hp : k₁ = k'
    · subst hp
      simp [dictSet, dictGet, h]
    · by_cases hk : k₁ = k
      · subst hk
        simp [dictSet, dictGet, hp, Ne.symm h]
      · simp [dictSet, dictGet, hp, hk, ih]

theorem dictGet_pop_other {K V : Type} [DecidableEq K] {k k' : K}
    (m : List (K × V)) (h : k ≠ k') :
    dictGet k (dictPop k' m) = dictGet k m := by
  induction m with
  | nil => simp [dictPop]
  | cons p rest ih =>
    obtain ⟨k₁, v₁⟩ := p
    by_cases hp : k₁ = k'
    · subst hp
      simp [dictPop, dictGet, Ne.symm h]
    · by_cases hk : k₁ = k
      · subst hk
        simp [dictPop, dictGet, hp, h]
      · simp [dictPop, dictGet, hp, hk, ih]

theorem dictGet_some_mem {K V : Type} [DecidableEq K] {k : K} {v : V}
    {m : List (K × V)} (h : dictGet k m = some v) : (k, v) ∈ m := by
  induction m with
  | nil => simp [dictGet] at h
  | cons p rest ih =>
    obtain ⟨k₁, v₁⟩ := p
    by_cases hp : k₁ = k
    · subst hp
      simp only [dictGet, if_pos] at h
      cases h
      exact List.mem_cons_self _ _
    · simp only [dictGet, hp, if_false, ite_false] at h
      exact List.mem_cons_of_mem _ (ih h)

theorem minUpdate_lookup_self {K : Type} [DecidableEq K] (m : List (K × ℤ))
    (k : K) (t : ℤ) :
    dictGet k (minUpdate m k t) =
      some (match dictGet k m with | none => t | some p => min p t) := by
  unfold minUpdate
  cases h : dictGet k m with
  | none => simp [dictGet_set_self]
  | some p =>
    by_cases hlt : t < p
    · simp [hlt, dictGet_set_self, min_eq_right (le_of_lt hlt)]
    · simp [hlt, h, min_eq_left (le_of_not_lt hlt)]

theorem minUpdate_lookup_other {K : Type} [DecidableEq K] (m : List (K × ℤ))
    {k k' : K} (t : ℤ) (h : k' ≠ k) :
    dictGet k (minUpdate m k' t) = dictGet k m := by
  unfold minUpdate
  cases hm : dictGet k' m with
  | none => simp [dictGet_set_other _ _ h]
  | some p =>
    by_cases hlt : t < p <;> simp [hlt, dictGet_set_other _ _ h]

theorem dictAppend_forall {K V : Type} [DecidableEq K] {P : V → Prop}
    (k : K) (x : V) (m : List (K × List V))
    (hm : ∀ g vs, (g, vs) ∈ m → ∀ v ∈ vs, P v) (hx : P x) :
    ∀ g vs, (g, vs) ∈ dictAppend k x m → ∀ v ∈ vs, P v := by
  induction m with
  | nil =>
    intro g vs hmem v hv
    simp only [dictAppend, List.mem_singleton] at hmem
    rw [show vs = [x] from congrArg Prod.snd hmem] at hv
    simp only [List.mem_singleton] at hv
    exact hv ▸ hx
  | cons p rest ih =>
    obtain ⟨k₁, vs₁⟩ := p
    intro g vs hmem v hv
    by_cases hp : k₁ = k
    · rw [dictAppend, if_pos hp] at hmem
      rcases List.mem_cons.mp hmem with hmem | hmem
      · rw [show vs = vs₁ ++ [x] from congrArg Prod.snd hmem] at hv
        rcases List.mem_append.mp hv with hv | hv
        · exact hm k₁ vs₁ (List.mem_cons_self _ _) v hv
        · simp only [List.mem_singleton] at hv
          exact hv ▸ hx
      · exact hm g vs (List.mem_cons_of_mem _ hmem) v hv
    · rw [dictAppend, if_neg hp] at hmem
      rcases List.mem_cons.mp hmem with hmem | hmem
      · rw [show vs = vs₁ from congrArg Prod.snd hmem] at hv
        exact hm k₁ vs₁ (List.mem_cons_self _ _) v hv
      · exact ih (fun g vs h => hm g vs (List.mem_cons_of_mem _ h)) g vs hmem v hv

/-! ### Non-negativity of the filtered delta collections (C1) -/

theorem collect_nonneg_aux {K : Type} [DecidableEq K] (keyStr : K → String)
    (end_t : List (K × ℤ)) :
    ∀ (start_t : List (K × ℤ)) (acc : List ℤ × List (String × List ℤ)),
      (∀ d ∈ acc.1, 0 ≤ d) →
      (∀ g ds, (g, ds) ∈ acc.2 → ∀ d ∈ ds, 0 ≤ d) →
      (∀ d ∈ (start_t.foldl (collectStep keyStr end_t) acc).1, 0 ≤ d) ∧
      (∀ g ds, (g, ds) ∈ (start_t.foldl (collectStep keyStr end_t) acc).2 →
        ∀ d ∈ ds, 0 ≤ d) := by
  intro start_t
  induction start_t with
  | nil => exact fun acc h1 h2 => ⟨h1, h2⟩
  | cons kt rest ih =>
    intro acc h1 h2
    rw [List.foldl_cons]
    apply ih
    · intro d hd
      cases hend : dictGet kt.1 end_t with
      | none =>
        simp only [collectStep, hend] at hd
        exact h1 d hd
      | some t1 =>
        by_cases hneg : t1 - kt.2 < 0
        · simp only [collectStep, hend, if_pos hneg] at hd
          exact h1 d hd
        · simp only [collectStep, hend, if_neg hneg] at hd
          rcases List.mem_append.mp hd with hd | hd
          · exact h1 d hd
          · simp only [List.mem_singleton] at hd
            exact hd ▸ le_of_not_lt hneg
    · intro g ds hgd
      cases hend : dictGet kt.1 end_t with
      | none =>
        simp only [collectStep, hend] at hgd
        exact h2 g ds hgd
      | some t1 =>
        by_cases hneg : t1 - kt.2 < 0
        · simp only [collectStep, hend, if_pos hneg] at hgd
          exact h2 g ds hgd
        · simp only [collectStep, hend, if_neg hneg] at hgd
          exact dictAppend_forall _ _ _ h2 (le_of_not_lt hneg) g ds hgd

theorem sched_collect_nonneg_aux (deq : List (SchedKey × ℤ)) :
    ∀ (enq : List (SchedKey × ℤ))
      (acc : List ℤ × List (String × List ℤ) × List (String × List ℤ)),
      (∀ d ∈ acc.1, 0 ≤ d) →
      (∀ g ds, (g, ds) ∈ acc.2.1 → ∀ d ∈ ds, 0 ≤ d) →
      (∀ g ds, (g, ds) ∈ acc.2.2 → ∀ d ∈ ds, 0 ≤ d) →
      (∀ d ∈ (enq.foldl (schedCollectStep deq) acc).1, 0 ≤ d) ∧
      (∀ g ds, (g, ds) ∈ (enq.foldl (schedCollectStep deq) acc).2.1 →
        ∀ d ∈ ds, 0 ≤ d) ∧
      (∀ g ds, (g, ds) ∈ (enq.foldl (schedCollectStep deq) acc).2.2 →
        ∀ d ∈ ds, 0 ≤ d) := by
  intro enq
  induction enq with
  | nil => exact fun acc h1 h2 h3 => ⟨h1, h2, h3⟩
  | cons kt rest ih =>
    intro acc h1 h2 h3
    rw [List.foldl_cons]
    cases hend : dictGet kt.1 deq with
    | none =>
      apply ih
      all_goals simp only [schedCollectStep, hend]
      · exact h1
      · exact h2
      · exact h3
    | some t1 =>
      by_cases hneg : t1 - kt.2 < 0
      · apply ih
        all_goals simp only [schedCollectStep, hend, if_pos hneg]
        · exact h1
        · exact h2
        · exact h3
      · apply ih
        all_goals simp only [schedCollectStep, hend, if_neg hneg]
        · intro d hd
          rcases List.mem_append.mp hd with hd | hd
          · exact h1 d hd
          · simp only [List.mem_singleton] at hd
            exact hd ▸ le_of_not_lt hneg
        · exact dictAppend_forall _ _ _ h2 (le_of_not_lt hneg)
        · exact dictAppend_forall _ _ _ h3 (le_of_not_lt hneg)

theorem frag_collect_nonneg_aux (tx_t : List ((String × ℤ) × ℤ))
    (tx_addr : List ((String × ℤ) × String)) :
    ∀ (emit_t : List ((String × ℤ) × ℤ)) (acc : List ℤ × List (String × List ℤ)),
      (∀ d ∈ acc.1, 0 ≤ d) →
      (∀ g ds, (g, ds) ∈ acc.2 → ∀ d ∈ ds, 0 ≤ d) →
      (∀ d ∈ (emit_t.foldl (fragCollectStep tx_t tx_addr) acc).1, 0 ≤ d) ∧
      (∀ g ds, (g, ds) ∈ (emit_t.foldl (fragCollectStep tx_t tx_addr) acc).2 →
        ∀ d ∈ ds, 0 ≤ d) := by
  intro emit_t
  induction emit_t with
  | nil => exact fun acc h1 h2 => ⟨h1, h2⟩
  | cons kt rest ih =>
    intro acc h1 h2
    rw [List.foldl_cons]
    cases hend : dictGet kt.1 tx_t with
    | none =>
      apply ih
      all_goals simp only [fragCollectStep, hend]
      · exact h1
      · exact h2
    | some t1 =>
      by_cases hneg : t1 - kt.2 < 0
      · apply ih
        all_goals simp only [fragCollectStep, hend, if_pos hneg]
        · exact h1
        · exact h2
      · apply ih
        all_goals simp only [fragCollectStep, hend, if_neg hneg]
        · intro d hd
          rcases List.mem_append.mp hd with hd | hd
          · exact h1 d hd
          · simp only [List.mem_singleton] at hd
            exact hd ▸ le_of_not_lt hneg
        · exact dictAppend_forall _ _ _ h2 (le_of_not_lt hneg)

/-- C1 (counterexample): the fid-keyed sender pipeline has no non-negativity
filter — with `cam_frame` at t=200 and `enc_out` at t=100 for the same fid,
the delta -100 enters the `cam_frame -> enc_out` list, contradicting the
claim that every correlation analysis excludes such pairs. -/
theorem sender_pipeline_emits_negative_delta :
    (analyze_sender_by_fid
      [⟨"cam_frame", 200, [("fid", "7")]⟩,
       ⟨"enc_out", 100, [("fid", "7")]⟩]).1 = [-100] ∧ (-100 : ℤ) < 0 := by
  constructor
  · decide
  · decide

/-- C1 (amended): every delta in any delta list or per-group bucket produced
by the generic correlator `_group_delays_by_key`, by
`analyze_scheduler_queue_delay`, or by `analyze_fragment_queue_wait` is
non-negative: a matched pair whose end precedes its start is discarded.  (The
fid/seq/fragId per-id pipeline analyses have no such filter; see the
counterexample.) -/
theorem filtered_deltas_nonneg :
    (∀ (K : Type) [DecidableEq K] (events : List Event) (s en : String)
        (mk : Event → Option K) (keyStr : K → String),
      (∀ d ∈ (_group_delays_by_key events s en mk keyStr).1, 0 ≤ d) ∧
      (∀ g ds, (g, ds) ∈ (_group_delays_by_key events s en mk keyStr).2 →
        ∀ d ∈ ds, 0 ≤ d)) ∧
    (∀ events : List Event,
      (∀ d ∈ (analyze_scheduler_queue_delay events).1, 0 ≤ d) ∧
      (∀ g ds, (g, ds) ∈ (analyze_scheduler_queue_delay events).2.1 →
        ∀ d ∈ ds, 0 ≤ d) ∧
      (∀ g ds, (g, ds) ∈ (analyze_scheduler_queue_delay events).2.2 →
        ∀ d ∈ ds, 0 ≤ d)) ∧
    (∀ events : List Event,
      (∀ d ∈ (analyze_fragment_queue_wait events).1, 0 ≤ d) ∧
      (∀ g ds, (g, ds) ∈ (analyze_fragment_queue_wait events).2 →
        ∀ d ∈ ds, 0 ≤ d)) := by
  refine ⟨?_, ?_, ?_⟩
  · intro K _ events s en mk keyStr
    exact collect_nonneg_aux keyStr _ _ ([], [])
      (by intro d hd; cases hd) (by intro g ds hgd; cases hgd)
  · intro events
    exact sched_collect_nonneg_aux _ _ ([], [], [])
      (by intro d hd; cases hd) (by intro g ds hgd; cases hgd)
      (by intro g ds hgd; cases hgd)
  · intro events
    exact frag_collect_nonneg_aux _ _ _ ([], [])
      (by intro d hd; cases hd) (by intro g ds hgd; cases hgd)

/-- C1 (witness): the amended theorem applied at a concrete input — the
150ns delta computed by the generic correlator is non-negative. -/
theorem filtered_deltas_nonneg_witness :
    (150 : ℤ) ∈ (_group_delays_by_key
      [⟨"s", 100, [("fid", "7")]⟩, ⟨"s", 50, [("fid", "7")]⟩,
       ⟨"e", 200, [("fid", "7")]⟩] "s" "e" (fun e => e.get "fid") id).1 ∧
    (0 : ℤ) ≤ 150 :=
  ⟨by decide,
   (filtered_deltas_nonneg.1 String
      [⟨"s", 100, [("fid", "7")]⟩, ⟨"s", 50, [("fid", "7")]⟩,
       ⟨"e", 200, [("fid", "7")]⟩] "s" "e" (fun e => e.get "fid") id).1 150
     (by decide)⟩

/-! ### Role inference (C4) -/

/-- C4: role inference follows the spec's decision table — `both` when sender
and receiver markers are both present, `sender` / `receiver` for one side
only, `relay` for receive-plus-relay markers or for the
fragmentation-plus-reassembly fallback, `unknown` otherwise; the concrete
histograms of the spec classify as stated, and the classifier is a total
function (it cannot throw on a histogram with no markers). -/
theorem infer_role_decision_table :
    (∀ counts : List (String × ℕ), infer_role counts = specRole counts) ∧
    infer_role [("cam_frame", 5), ("enc_out", 5)] = "sender" ∧
    infer_role [("rx_video", 3), ("dec_in", 3), ("render_cb", 3)] = "receiver" ∧
    infer_role [("rx_video", 2), ("mesh_forward", 1)] = "relay" ∧
    infer_role [("cam_frame", 1), ("rx_video", 1)] = "both" ∧
    infer_role [] = "unknown" := by
  refine ⟨fun counts => ?_, by decide, by decide, by decide, by decide, by decide⟩
  simp only [infer_role, specRole]
  split_ifs <;> first | rfl | tauto

/-! ### Missing correlation-key components (C8) -/

theorem corr_scan_filter_isSome {K : Type} [DecidableEq K] (s en : String)
    (mk : Event → Option K) :
    ∀ (events : List Event) (acc : List (K × ℤ) × List (K × ℤ)),
      events.foldl (corrStep s en mk) acc =
        (events.filter (fun e => (mk e).isSome)).foldl (corrStep s en mk) acc := by
  intro events
  induction events with
  | nil => intro acc; rfl
  | cons e rest ih =>
    intro acc
    cases hk : mk e with
    | none =>
      have hstep : corrStep s en mk acc e = acc := by
        unfold corrStep
        by_cases hev : ¬ (e.ev = s ∨ e.ev = en)
        · rw [if_pos hev]
        · rw [if_neg hev, hk]
      simp only [List.foldl_cons, List.filter_cons, hk, Option.isSome_none,
        Bool.false_eq_true, if_false, hstep]
      exact ih acc
    | some k =>
      simp only [List.foldl_cons, List.filter_cons, hk, Option.isSome_some,
        if_true]
      exact ih _

theorem txaddr_scan_filter_isSome :
    ∀ (events : List Event) (m : List ((String × ℤ) × String)),
      events.foldl txAddrStep m =
        (events.filter (fun e => (key_emit_tx e).isSome)).foldl txAddrStep m := by
  intro events
  induction events with
  | nil => intro m; rfl
  | cons e rest ih =>
    intro m
    cases hk : key_emit_tx e with
    | none =>
      have hstep : txAddrStep m e = m := by
        unfold txAddrStep
        by_cases hev : e.ev ≠ "ble_tx_call"
        · rw [if_pos hev]
        · rw [if_neg hev, hk]
      simp only [List.foldl_cons, List.filter_cons, hk, Option.isSome_none,
        Bool.false_eq_true, if_false, hstep]
      exact ih m
    | some k =>
      simp only [List.foldl_cons, List.filter_cons, hk, Option.isSome_some,
        if_true]
      exact ih _

theorem index_scan_filter_isSome (key : String) :
    ∀ (events : List Event) (idx : List (String × List Event)),
      events.foldl (indexStep key) idx =
        (events.filter (fun e => (e.get key).isSome)).foldl
          (indexStep key) idx := by
  intro events
  induction events with
  | nil => intro idx; rfl
  | cons e rest ih =>
    intro idx
    cases hk : e.get key with
    | none =>
      have hstep : indexStep key idx e = idx := by
        unfold indexStep
        rw [hk]
      simp only [List.foldl_cons, List.filter_cons, hk, Option.isSome_none,
        Bool.false_eq_true, if_false, hstep]
      exact ih idx
    | some v =>
      simp only [List.foldl_cons, List.filter_cons, hk, Option.isSome_some,
        if_true]
      exact ih _

/-- C8: an event from which a required key component cannot be derived is
excluded from that stage pair, and from that stage pair only.  For the
fid-, seq- and fragId-keyed stage pairs the key is the field itself:
`build_index` skips events missing the field, so dropping them changes none
of the three per-id analyses.  The scheduler key `_match_key` is `None`
exactly when `addr` or `priority` is missing (the `transferId`, `fragId` and
`idx` components are optional), the fragment-queue key `key_emit_tx` is
`None` exactly when `fragId` or an integer `idx` is missing, and dropping
`None`-keyed events changes neither analysis.  Exclusion is per stage pair
only: an event can lack the scheduler key while carrying the fragment-queue
key, and can lack `fid` while carrying `seq`. -/
theorem missing_key_component_excluded :
    (∀ (events : List Event) (key : String), build_index events key =
      build_index (events.filter (fun e => (e.get key).isSome)) key) ∧
    (∀ events : List Event, analyze_sender_by_fid events =
      analyze_sender_by_fid
        (events.filter (fun e => (e.get "fid").isSome))) ∧
    (∀ events : List Event, analyze_receiver_by_seq events =
      analyze_receiver_by_seq
        (events.filter (fun e => (e.get "seq").isSome))) ∧
    (∀ events : List Event, analyze_fragments_by_id events =
      analyze_fragments_by_id
        (events.filter (fun e => (e.get "fragId").isSome))) ∧
    (∀ e : Event, _match_key e = none ↔
      (e.get "addr" = none ∨ e.get "priority" = none)) ∧
    (∀ events : List Event, analyze_scheduler_queue_delay events =
      analyze_scheduler_queue_delay
        (events.filter (fun e => (_match_key e).isSome))) ∧
    (∀ e : Event, key_emit_tx e = none ↔
      (e.get "fragId" = none ∨ e.geti "idx" = none)) ∧
    (∀ events : List Event, analyze_fragment_queue_wait events =
      analyze_fragment_queue_wait
        (events.filter (fun e => (key_emit_tx e).isSome))) ∧
    (∃ e : Event, _match_key e = none ∧ (key_emit_tx e).isSome = true) ∧
    (∃ e : Event, e.get "fid" = none ∧ (e.get "seq").isSome = true) := by
  refine ⟨?_, ?_, ?_, ?_, ?_, ?_, ?_, ?_, ?_, ?_⟩
  · intro events key
    unfold build_index
    exact index_scan_filter_isSome key events []
  · intro events
    unfold analyze_sender_by_fid
    rw [show build_index events "fid" =
        build_index (events.filter (fun e => (e.get "fid").isSome)) "fid" by
      unfold build_index
      exact index_scan_filter_isSome "fid" events []]
  · intro events
    unfold analyze_receiver_by_seq
    rw [show build_index events "seq" =
        build_index (events.filter (fun e => (e.get "seq").isSome)) "seq" by
      unfold build_index
      exact index_scan_filter_isSome "seq" events []]
  · intro events
    unfold analyze_fragments_by_id
    rw [show build_index events "fragId" =
        build_index (events.filter (fun e => (e.get "fragId").isSome))
          "fragId" by
      unfold build_index
      exact index_scan_filter_isSome "fragId" events []]
  · intro e
    unfold _match_key
    cases haddr : e.get "addr" <;> cases hprio : e.get "priority"
    case none.none => simp
    case none.some => simp
    case some.none => simp
    case some.some =>
      cases hf : e.get "fragId" <;> cases hi : e.geti "idx" <;> simp
  · intro events
    unfold analyze_scheduler_queue_delay schedMaps
    rw [corr_scan_filter_isSome]
  · intro e
    unfold key_emit_tx
    cases hf : e.get "fragId" <;> cases hi : e.geti "idx" <;> simp
  · intro events
    unfold analyze_fragment_queue_wait fragQueueMaps fragQueueTxAddr
    rw [corr_scan_filter_isSome, txaddr_scan_filter_isSome]
  · exact ⟨⟨"x", 0, [("fragId", "f"), ("idx", "0")]⟩, by decide⟩
  · exact ⟨⟨"rx_video", 0, [("seq", "1")]⟩, by decide⟩


/-! ### Earliest-timestamp policy (C2) -/

theorem minUpdate_lookup_self_omin {K : Type} [DecidableEq K]
    (m : List (K × ℤ)) (k : K) (t : ℤ) :
    dictGet k (minUpdate m k t) = omin (dictGet k m) t :=
  minUpdate_lookup_self m k t

theorem corrStep_start {K : Type} [DecidableEq K] {s en : String}
    {mk : Event → Option K} {e : Event} {k' : K}
    (acc : List (K × ℤ) × List (K × ℤ)) (hev : e.ev = s)
    (hk : mk e = some k') :
    corrStep s en mk acc e = (minUpdate acc.1 k' e.t, acc.2) := by
  unfold corrStep
  rw [if_neg (by simp [hev])]
  simp only [hk]
  rw [if_pos hev]

theorem corrStep_end {K : Type} [DecidableEq K] {s en : String}
    {mk : Event → Option K} {e : Event} {k' : K}
    (acc : List (K × ℤ) × List (K × ℤ)) (hen : e.ev = en)
    (hev : ¬ e.ev = s) (hk : mk e = some k') :
    corrStep s en mk acc e = (acc.1, minUpdate acc.2 k' e.t) := by
  unfold corrStep
  rw [if_neg (by simp [hen])]
  simp only [hk]
  rw [if_neg hev]

theorem corrStep_skip_key {K : Type} [DecidableEq K] {s en : String}
    {mk : Event → Option K} {e : Event}
    (acc : List (K × ℤ) × List (K × ℤ)) (hk : mk e = none) :
    corrStep s en mk acc e = acc := by
  unfold corrStep
  by_cases hif : ¬ (e.ev = s ∨ e.ev = en)
  · rw [if_pos hif]
  · rw [if_neg hif]
    simp only [hk]

theorem corrStep_skip_kind {K : Type} [DecidableEq K] {s en : String}
    {mk : Event → Option K} {e : Event}
    (acc : List (K × ℤ) × List (K × ℤ)) (hev : ¬ e.ev = s)
    (hen : ¬ e.ev = en) :
    corrStep s en mk acc e = acc := by
  unfold corrStep
  rw [if_pos (by simp [hev, hen])]

theorem corr_scan_start_lookup {K : Type} [DecidableEq K] (s en : String)
    (mk : Event → Option K) (k : K) :
    ∀ (events : List Event) (acc : List (K × ℤ) × List (K × ℤ)),
      dictGet k (events.foldl (corrStep s en mk) acc).1 =
        ((events.filter
            (fun e => decide (e.ev = s) && decide (mk e = some k))).map
          (·.t)).foldl omin (dictGet k acc.1) := by
  intro events
  induction events with
  | nil => intro acc; rfl
  | cons e rest ih =>
    intro acc
    rw [List.foldl_cons, List.filter_cons]
    by_cases hev : e.ev = s
    · cases hk : mk e with
      | none =>
        rw [if_neg (by simp [hk]), corrStep_skip_key acc hk]
        exact ih acc
      | some k' =>
        by_cases hkk : k' = k
        · subst hkk
          rw [if_pos (by simp [hev, hk]), List.map_cons, List.foldl_cons,
            corrStep_start acc hev hk, ih]
          rw [show dictGet k' (minUpdate acc.1 k' e.t, acc.2).1 =
              omin (dictGet k' acc.1) e.t from minUpdate_lookup_self_omin _ _ _]
        · rw [if_neg (by simp [hk, hkk]), corrStep_start acc hev hk, ih]
          rw [show dictGet k (minUpdate acc.1 k' e.t, acc.2).1 =
              dictGet k acc.1 from minUpdate_lookup_other _ _ hkk]
    · rw [if_neg (by simp [hev])]
      by_cases hen : e.ev = en
      · cases hk : mk e with
        | none =>
          rw [corrStep_skip_key acc hk]
          exact ih acc
        | some k' =>
          rw [corrStep_end acc hen hev hk]
          exact ih _
      · rw [corrStep_skip_kind acc hev hen]
        exact ih acc

theorem corr_scan_end_lookup {K : Type} [DecidableEq K] (s en : String)
    (mk : Event → Option K) (k : K) (hne : s ≠ en) :
    ∀ (events : List Event) (acc : List (K × ℤ) × List (K × ℤ)),
      dictGet k (events.foldl (corrStep s en mk) acc).2 =
        ((events.filter
            (fun e => decide (e.ev = en) && decide (mk e = some k))).map
          (·.t)).foldl omin (dictGet k acc.2) := by
  intro events
  induction events with
  | nil => intro acc; rfl
  | cons e rest ih =>
    intro acc
    rw [List.foldl_cons, List.filter_cons]
    by_cases hen : e.ev = en
    · have hev : ¬ e.ev = s := by
        rw [hen]
        exact fun h => hne h.symm
      cases hk : mk e with
      | none =>
        rw [if_neg (by simp [hk]), corrStep_skip_key acc hk]
        exact ih acc
      | some k' =>
        by_cases hkk : k' = k
        · subst hkk
          rw [if_pos (by simp [hen, hk]), List.map_cons, List.foldl_cons,
            corrStep_end acc hen hev hk, ih]
          rw [show dictGet k' (acc.1, minUpdate acc.2 k' e.t).2 =
              omin (dictGet k' acc.2) e.t from minUpdate_lookup_self_omin _ _ _]
        · rw [if_neg (by simp [hk, hkk]), corrStep_end acc hen hev hk, ih]
          rw [show dictGet k (acc.1, minUpdate acc.2 k' e.t).2 =
              dictGet k acc.2 from minUpdate_lookup_other _ _ hkk]
    · rw [if_neg (by simp [hen])]
      by_cases hev : e.ev = s
      · cases hk : mk e with
        | none =>
          rw [corrStep_skip_key acc hk]
          exact ih acc
        | some k' =>
          rw [corrStep_start acc hev hk]
          exact ih _
      · rw [corrStep_skip_kind acc hev hen]
        exact ih acc

theorem foldl_omin_some (l : List ℤ) :
    ∀ a : ℤ, l.foldl omin (some a) = some (l.foldl min a) := by
  induction l with
  | nil => intro a; rfl
  | cons b l ih =>
    intro a
    rw [List.foldl_cons, List.foldl_cons]
    exact ih (min a b)

theorem foldl_min_mem (l : List ℤ) :
    ∀ a : ℤ, l.foldl min a = a ∨ l.foldl min a ∈ l := by
  induction l with
  | nil => intro a; exact Or.inl rfl
  | cons b l ih =>
    intro a
    rw [List.foldl_cons]
    rcases ih (min a b) with h | h
    · rcases min_choice a b with hm | hm
      · exact Or.inl (h.trans hm)
      · exact Or.inr (by rw [h.trans hm]; exact List.mem_cons_self b l)
    · exact Or.inr (List.mem_cons_of_mem b h)

theorem foldl_min_le (l : List ℤ) :
    ∀ a : ℤ, l.foldl min a ≤ a ∧ ∀ x ∈ l, l.foldl min a ≤ x := by
  induction l with
  | nil =>
    intro a
    exact ⟨le_refl a, by intro x hx; cases hx⟩
  | cons b l ih =>
    intro a
    rw [List.foldl_cons]
    refine ⟨(ih (min a b)).1.trans (min_le_left a b), ?_⟩
    intro x hx
    rcases List.mem_cons.mp hx with hx | hx
    · exact hx ▸ (ih (min a b)).1.trans (min_le_right a b)
    · exact (ih (min a b)).2 x hx

theorem le_foldl_min (l : List ℤ) :
    ∀ a t : ℤ, t ≤ a → (∀ x ∈ l, t ≤ x) → t ≤ l.foldl min a := by
  induction l with
  | nil => intro a t ha _; exact ha
  | cons b l ih =>
    intro a t ha hl
    rw [List.foldl_cons]
    exact ih (min a b) t (le_min ha (hl b (List.mem_cons_self b l)))
      (fun x hx => hl x (List.mem_cons_of_mem b hx))

theorem foldl_omin_none_eq_some_iff (l : List ℤ) (t₀ : ℤ) :
    l.foldl omin none = some t₀ ↔ (t₀ ∈ l ∧ ∀ x ∈ l, t₀ ≤ x) := by
  cases l with
  | nil => simp [List.foldl]
  | cons a l =>
    rw [List.foldl_cons, show omin none a = some a from rfl, foldl_omin_some]
    constructor
    · intro h
      have ht : t₀ = l.foldl min a := by
        injection h with h
        exact h.symm
      subst ht
      constructor
      · rcases foldl_min_mem l a with h | h
        · rw [h]
          exact List.mem_cons_self a l
        · exact List.mem_cons_of_mem a h
      · intro x hx
        rcases List.mem_cons.mp hx with hx | hx
        · exact hx ▸ (foldl_min_le l a).1
        · exact (foldl_min_le l a).2 x hx
    · intro ⟨hmem, hle⟩
      have h1 : t₀ ≤ l.foldl min a :=
        le_foldl_min l a t₀ (hle a (List.mem_cons_self a l))
          (fun x hx => hle x (List.mem_cons_of_mem a hx))
      have h2 : l.foldl min a ≤ t₀ := by
        rcases List.mem_cons.mp hmem with hx | hx
        · exact hx ▸ (foldl_min_le l a).1
        · exact (foldl_min_le l a).2 t₀ hx
      rw [le_antisymm h2 h1]

theorem collect_acc_mono {K : Type} [DecidableEq K] (keyStr : K → String)
    (end_t : List (K × ℤ)) :
    ∀ (start_t : List (K × ℤ)) (acc : List ℤ × List (String × List ℤ)) (x : ℤ),
      x ∈ acc.1 → x ∈ (start_t.foldl (collectStep keyStr end_t) acc).1 := by
  intro start_t
  induction start_t with
  | nil => intro acc x hx; exact hx
  | cons kt rest ih =>
    intro acc x hx
    rw [List.foldl_cons]
    apply ih
    cases hend : dictGet kt.1 end_t with
    | none => simpa only [collectStep, hend] using hx
    | some t1 =>
      by_cases hneg : t1 - kt.2 < 0
      · simpa only [collectStep, hend, if_pos hneg] using hx
      · simp only [collectStep, hend, if_neg hneg]
        exact List.mem_append_left _ hx

theorem collect_mem_of_matched {K : Type} [DecidableEq K] (keyStr : K → String)
    (end_t : List (K × ℤ)) :
    ∀ (start_t : List (K × ℤ)) (acc : List ℤ × List (String × List ℤ))
      (k : K) (t₀ t₁ : ℤ),
      (k, t₀) ∈ start_t → dictGet k end_t = some t₁ → 0 ≤ t₁ - t₀ →
      (t₁ - t₀) ∈ (start_t.foldl (collectStep keyStr end_t) acc).1 := by
  intro start_t
  induction start_t with
  | nil => intro acc k t₀ t₁ hmem; cases hmem
  | cons kt rest ih =>
    intro acc k t₀ t₁ hmem hend hpos
    rw [List.foldl_cons]
    rcases List.mem_cons.mp hmem with hmem | hmem
    · subst hmem
      apply collect_acc_mono
      simp only [collectStep, hend, if_neg (not_lt.mpr hpos)]
      exact List.mem_append_right _ (List.mem_singleton.mpr rfl)
    · exact ih _ k t₀ t₁ hmem hend hpos

/-- C2 (counterexample): the fid-keyed sender analysis resolves duplicate
starts by file order, not by earliest timestamp — with `cam_frame` events at
t=100 then t=50 for fid 7 and `enc_out` at t=200 the computed delta is 100
(first `cam_frame` in input order), not the 150 the claim requires. -/
theorem sender_pipeline_uses_first_not_earliest :
    (analyze_sender_by_fid
      [⟨"cam_frame", 100, [("fid", "7")]⟩, ⟨"cam_frame", 50, [("fid", "7")]⟩,
       ⟨"enc_out", 200, [("fid", "7")]⟩]).1 = [100] ∧ (100 : ℤ) ≠ 150 := by
  constructor
  · decide
  · decide

/-- C2 (amended): the generic correlator `_group_delays_by_key` (and with it
the scheduler and fragment-queue analyses, which run the identical scan)
really keeps, per key and side, the numerically smallest timestamp among the
matching events — its recorded start (resp. end) time is `some t₀` exactly
when some matching event has timestamp `t₀` and every matching event's
timestamp is at least `t₀` — and a matched key contributes `end - start` to
the delta list when that difference is non-negative.  The fid-, seq- and
fragId-keyed pipeline analyses instead use the first event of each kind in
input order (see the counterexample). -/
theorem earliest_timestamp_policy :
    ∀ (K : Type) [DecidableEq K] (events : List Event) (s en : String)
      (mk : Event → Option K) (keyStr : K → String) (k : K) (t₀ : ℤ),
      s ≠ en →
      (dictGet k (groupDelayMaps events s en mk).1 = some t₀ ↔
        ((∃ e ∈ events, e.ev = s ∧ mk e = some k ∧ e.t = t₀) ∧
         ∀ e ∈ events, e.ev = s → mk e = some k → t₀ ≤ e.t)) ∧
      (dictGet k (groupDelayMaps events s en mk).2 = some t₀ ↔
        ((∃ e ∈ events, e.ev = en ∧ mk e = some k ∧ e.t = t₀) ∧
         ∀ e ∈ events, e.ev = en → mk e = some k → t₀ ≤ e.t)) ∧
      (∀ t₁ : ℤ, dictGet k (groupDelayMaps events s en mk).1 = some t₀ →
        dictGet k (groupDelayMaps events s en mk).2 = some t₁ →
        0 ≤ t₁ - t₀ →
        (t₁ - t₀) ∈ (_group_delays_by_key events s en mk keyStr).1) := by
  intro K _ events s en mk keyStr k t₀ hne
  refine ⟨?_, ?_, ?_⟩
  · rw [show (groupDelayMaps events s en mk) =
        events.foldl (corrStep s en mk) ([], []) from rfl,
      corr_scan_start_lookup,
      show dictGet k (([] : List (K × ℤ)), ([] : List (K × ℤ))).1 =
        (none : Option ℤ) from rfl,
      foldl_omin_none_eq_some_iff]
    simp only [List.mem_map, List.mem_filter, Bool.and_eq_true,
      decide_eq_true_eq]
    constructor
    · rintro ⟨⟨e, ⟨he, hs, hk⟩, ht⟩, hall⟩
      exact ⟨⟨e, he, hs, hk, ht⟩,
        fun e' he' hs' hk' => hall e'.t ⟨e', ⟨he', hs', hk'⟩, rfl⟩⟩
    · rintro ⟨⟨e, he, hs, hk, ht⟩, hall⟩
      exact ⟨⟨e, ⟨he, hs, hk⟩, ht⟩,
        fun x ⟨e', ⟨he', hs', hk'⟩, ht'⟩ => ht' ▸ hall e' he' hs' hk'⟩
  · rw [show (groupDelayMaps events s en mk) =
        events.foldl (corrStep s en mk) ([], []) from rfl,
      corr_scan_end_lookup s en mk k hne,
      show dictGet k (([] : List (K × ℤ)), ([] : List (K × ℤ))).2 =
        (none : Option ℤ) from rfl,
      foldl_omin_none_eq_some_iff]
    simp only [List.mem_map, List.mem_filter, Bool.and_eq_true,
      decide_eq_true_eq]
    constructor
    · rintro ⟨⟨e, ⟨he, hs, hk⟩, ht⟩, hall⟩
      exact ⟨⟨e, he, hs, hk, ht⟩,
        fun e' he' hs' hk' => hall e'.t ⟨e', ⟨he', hs', hk'⟩, rfl⟩⟩
    · rintro ⟨⟨e, he, hs, hk, ht⟩, hall⟩
      exact ⟨⟨e, ⟨he, hs, hk⟩, ht⟩,
        fun x ⟨e', ⟨he', hs', hk'⟩, ht'⟩ => ht' ▸ hall e' he' hs' hk'⟩
  · intro t₁ h0 h1 hpos
    exact collect_mem_of_matched keyStr _ _ ([], []) k t₀ t₁
      (dictGet_some_mem h0) h1 hpos

/-- C2 (witness): the amended theorem at the spec's concrete scenario — two
starts at t=100 and t=50 for key `7` and one end at t=200: the recorded start
timestamp is 50, the earlier one. -/
theorem earliest_timestamp_policy_witness :
    ("s" : String) ≠ "e" ∧
    dictGet "7" (groupDelayMaps
      [⟨"s", 100, [("fid", "7")]⟩, ⟨"s", 50, [("fid", "7")]⟩,
       ⟨"e", 200, [("fid", "7")]⟩] "s" "e" (fun e => e.get "fid")).1 =
      some 50 :=
  ⟨by decide,
   ((earliest_timestamp_policy String
      [⟨"s", 100, [("fid", "7")]⟩, ⟨"s", 50, [("fid", "7")]⟩,
       ⟨"e", 200, [("fid", "7")]⟩] "s" "e" (fun e => e.get "fid") id "7" 50
      (by decide)).1).mpr (by decide)⟩

/-! ### Line rejection (C7) -/

/-- C7 (counterexample): a line carrying the marker and a recognizable `ev=`
field but no ` t=` field is still rejected, contradicting the claim that one
of the two mandatory fields suffices. -/
theorem marker_and_kind_line_still_rejected :
    containsSub "latency".data "D/latency: ev=cam_frame fid=7".data = true ∧
    containsSub "ev=".data "D/latency: ev=cam_frame fid=7".data = true ∧
    parseLatencyLine "D/latency: ev=cam_frame fid=7".data = none := by
  refine ⟨by decide, by decide, by decide⟩

/-- C7 (amended): the parser accepts a raw line exactly when it contains the
`"latency"` marker substring AND the `"ev="` substring AND the `" t="`
substring (both mandatory tokens, not just one of them), and additionally its
key=value tokens yield an `ev` entry and an integer-parsable `t` entry;
otherwise it returns nothing. -/
theorem parse_accepts_iff :
    ∀ raw : List Char,
      (parseLatencyLine raw).isSome = true ↔
        (containsSub "latency".data raw = true ∧
         containsSub "ev=".data raw = true ∧
         containsSub " t=".data raw = true ∧
         (dictGet "ev" (lineKV raw)).isSome = true ∧
         (_to_int (dictGet "t" (lineKV raw))).isSome = true) := by
  intro raw
  unfold parseLatencyLine
  by_cases h1 : containsSub "latency".data raw = true
  · rw [if_neg (by simp [h1])]
    by_cases h2 : containsSub "ev=".data raw = true
    · by_cases h3 : containsSub " t=".data raw = true
      · rw [if_neg (by simp [h2, h3])]
        cases hev : dictGet "ev" (lineKV raw) with
        | none => simp [h1, h2, h3, hev]
        | some ev =>
          cases ht : _to_int (dictGet "t" (lineKV raw)) with
          | none => simp [h1, h2, h3, hev, ht]
          | some t => simp [h1, h2, h3, hev, ht]
      · rw [if_pos (Or.inr (by simp [h3]))]
        simp [h3]
    · rw [if_pos (Or.inl (by simp [h2]))]
      simp [h2]
  · rw [if_pos (by simp [h1])]
    simp [h1]

/-! ### Duplicate keys and first-equals split (C10) -/

theorem getLast?_cons_or {α : Type} (x : α) (l : List α) :
    (x :: l).getLast? = l.getLast?.or (some x) := by
  induction l generalizing x with
  | nil => rfl
  | cons y ys ih =>
    rw [List.getLast?_cons_cons, ih y]
    cases ys.getLast? <;> rfl

theorem kv_loop_lookup (k : String) :
    ∀ (parts : List (List Char)) (kv : List (String × String)),
      dictGet k (parts.foldl kvStep kv) =
        ((((parts.filterMap splitKV).filter
            (fun pr => decide (pr.1 = k))).getLast?.map Prod.snd).or
          (dictGet k kv)) := by
  intro parts
  induction parts with
  | nil =>
    intro kv
    simp
  | cons p rest ih =>
    intro kv
    rw [List.foldl_cons, List.filterMap_cons]
    cases hp : splitKV p with
    | none =>
      rw [show kvStep kv p = kv by rw [kvStep, hp]]
      exact ih kv
    | some kvpair =>
      obtain ⟨k', v⟩ := kvpair
      rw [show kvStep kv p = dictSet k' v kv by rw [kvStep, hp],
        List.filter_cons]
      by_cases hk : k' = k
      · subst hk
        rw [if_pos (by simp), getLast?_cons_or, ih (dictSet k' v kv),
          dictGet_set_self]
        cases (List.filter (fun pr => decide (pr.1 = k'))
            (rest.filterMap splitKV)).getLast? <;> rfl
      · rw [if_neg (by simp [hk]), ih (dictSet k' v kv),
          dictGet_set_other _ _ hk]

theorem takeWhile_until_eq (b : List Char) :
    ∀ a : List Char, '=' ∉ a →
      (a ++ '=' :: b).takeWhile (· ≠ '=') = a := by
  intro a
  induction a with
  | nil =>
    intro _
    rw [List.nil_append, List.takeWhile_cons, if_neg (by simp)]
  | cons c a ih =>
    intro h
    have hc : (c ≠ '=') := fun hce => h (hce ▸ List.mem_cons_self c a)
    rw [List.cons_append, List.takeWhile_cons, if_pos (by simp [hc]),
      ih (fun hmem => h (List.mem_cons_of_mem c hmem))]

theorem dropWhile_until_eq (b : List Char) :
    ∀ a : List Char, '=' ∉ a →
      (a ++ '=' :: b).dropWhile (· ≠ '=') = '=' :: b := by
  intro a
  induction a with
  | nil =>
    intro _
    rw [List.nil_append, List.dropWhile_cons, if_neg (by simp)]
  | cons c a ih =>
    intro h
    have hc : (c ≠ '=') := fun hce => h (hce ▸ List.mem_cons_self c a)
    rw [List.cons_append, List.dropWhile_cons, if_pos (by simp [hc])]
    exact ih (fun hmem => h (List.mem_cons_of_mem c hmem))

/-- C10: in the token dict, a key occurring several times keeps the value of
its last occurrence; a token is split on its first `=` only, so values may
contain `=`; and the produced Event's field mapping answers every query other
than `ev`/`t` exactly as the token dict does. -/
theorem duplicate_keys_last_wins :
    (∀ (parts : List (List Char)) (k : String),
      dictGet k (kvOfParts parts) =
        ((parts.filterMap splitKV).filter
            (fun pr => decide (pr.1 = k))).getLast?.map Prod.snd) ∧
    (∀ a b : List Char, '=' ∉ a →
      splitKV (a ++ '=' :: b) = some (⟨a⟩, ⟨b⟩)) ∧
    (∀ (raw : List Char) (e : Event) (k : String),
      parseLatencyLine raw = some e → k ≠ "ev" → k ≠ "t" →
      dictGet k e.fields = dictGet k (lineKV raw)) := by
  refine ⟨?_, ?_, ?_⟩
  · intro parts k
    rw [show kvOfParts parts = parts.foldl kvStep [] from rfl,
      kv_loop_lookup k parts []]
    cases ((parts.filterMap splitKV).filter
        (fun pr => decide (pr.1 = k))).getLast? <;> rfl
  · intro a b h
    unfold splitKV
    rw [if_pos (List.mem_append_right a (List.mem_cons_self '=' b)),
      takeWhile_until_eq b a h, dropWhile_until_eq b a h]
    rfl
  · intro raw e k hsome hkev hkt
    unfold parseLatencyLine at hsome
    split at hsome
    · exact absurd hsome (by simp)
    · split at hsome
      · exact absurd hsome (by simp)
      · dsimp only at hsome
        split at hsome
        · injection hsome with hsome
          subst hsome
          show dictGet k (dictPop "t" (dictPop "ev" (lineKV raw))) =
            dictGet k (lineKV raw)
          rw [dictGet_pop_other _ hkt, dictGet_pop_other _ hkev]
        · exact absurd hsome (by simp)
        · exact absurd hsome (by simp)

/-- C10 (witness): the theorem at concrete inputs — the token `u=a=b` splits
at its first `=`, and for the line `D/latency: ev=x t=5 fid=1 fid=2` the
parsed Event answers `fid` just as the token dict does (where the last
`fid=2` wins). -/
theorem duplicate_keys_last_wins_witness :
    ('=' ∉ "u".data) ∧
    splitKV ("u".data ++ '=' :: "a=b".data) = some ("u", "a=b") ∧
    dictGet "fid"
        (Event.fields ⟨"x", 5, [("fid", "2")]⟩) =
      dictGet "fid" (lineKV "D/latency: ev=x t=5 fid=1 fid=2".data) :=
  ⟨by decide,
   duplicate_keys_last_wins.2.1 "u".data "a=b".data (by decide),
   duplicate_keys_last_wins.2.2 "D/latency: ev=x t=5 fid=1 fid=2".data
     ⟨"x", 5, [("fid", "2")]⟩ "fid" (by decide) (by decide) (by decide)⟩

/-! ### Statistics: empty/singleton, percentile monotonicity (C6, C9, C3) -/

theorem mergeSort_single {α : Type} (a : α) (le : α → α → Bool) :
    [a].mergeSort le = [a] :=
  List.perm_singleton.mp (List.mergeSort_perm [a] le)

theorem mergeSort_rat_sorted (l : List ℚ) :
    (l.mergeSort (fun a b => decide (a ≤ b))).Sorted (· ≤ ·) := by
  have htrans : ∀ a b c : ℚ, decide (a ≤ b) = true → decide (b ≤ c) = true →
      decide (a ≤ c) = true := by
    intro a b c hab hbc
    rw [decide_eq_true_eq] at hab hbc ⊢
    exact le_trans hab hbc
  have htot : ∀ a b : ℚ, (decide (a ≤ b) || decide (b ≤ a)) = true := by
    intro a b
    rcases le_total a b with h | h <;> simp [h]
  exact (List.sorted_mergeSort htrans htot l).imp
    (fun hab => decide_eq_true_eq.mp hab)

theorem sorted_getD_le (l : List ℚ) (hs : l.Sorted (· ≤ ·)) (i j : ℕ)
    (hij : i ≤ j) (hj : j < l.length) : l.getD i 0 ≤ l.getD j 0 := by
  have hi : i < l.length := lt_of_le_of_lt hij hj
  rw [List.getD_eq_getElem?_getD, List.getD_eq_getElem?_getD,
    List.getElem?_eq_getElem hi, List.getElem?_eq_getElem hj]
  simp only [Option.getD_some]
  rcases lt_or_eq_of_le hij with h | h
  · have := List.pairwise_iff_get.mp hs ⟨i, hi⟩ ⟨j, hj⟩ (Fin.mk_lt_mk.mpr h)
    simpa using this
  · subst h
    exact le_refl _

theorem pythonRound_bounds (q : ℚ) :
    q - 1/2 ≤ (pythonRound q : ℚ) ∧ (pythonRound q : ℚ) ≤ q + 1/2 := by
  unfold pythonRound
  have h1 : (⌊q⌋ : ℚ) ≤ q := Int.floor_le q
  have h2 : q < ⌊q⌋ + 1 := Int.lt_floor_add_one q
  split_ifs with ha hb hc <;> constructor <;> push_cast <;> linarith

theorem pythonRound_mono {a b : ℚ} (h : a ≤ b) :
    pythonRound a ≤ pythonRound b := by
  by_contra hc
  push_neg at hc
  have hint : pythonRound b + 1 ≤ pythonRound a := Int.add_one_le_iff.mpr hc
  have hq : (pythonRound b : ℚ) + 1 ≤ (pythonRound a : ℚ) := by
    exact_mod_cast hint
  have h1 := (pythonRound_bounds a).2
  have h2 := (pythonRound_bounds b).1
  have hab : a = b := by linarith
  subst hab
  exact absurd hc (lt_irrefl _)

/-- C6: summarizing an empty delta collection yields nothing, and summarizing
a single-element collection yields count 1 with mean, every percentile, min
and max all equal to the value converted to milliseconds. -/
theorem summarize_empty_and_singleton :
    stats_ms [] = none ∧
    ∀ x : ℤ, stats_ms [x] =
      some ⟨1, ns_to_ms x, ns_to_ms x, ns_to_ms x, ns_to_ms x,
        ns_to_ms x, ns_to_ms x⟩ := by
  constructor
  · rfl
  · intro x
    unfold stats_ms
    rw [if_neg (by simp)]
    have hms : (([x].map ns_to_ms).mergeSort (fun a b => decide (a ≤ b))) =
        [ns_to_ms x] := by
      rw [List.map_cons, List.map_nil, mergeSort_single]
    rw [hms]
    simp [pct, List.getD]

theorem pythonRound_zero : pythonRound 0 = 0 := by
  unfold pythonRound
  norm_num

theorem pct_eq_getD (ms : List ℚ) (hne : ms ≠ []) (p : ℚ) :
    pct ms p = ms.getD (max 0 (min ((ms.length : ℤ) - 1)
      (pythonRound (p / 100 * ((ms.length : ℚ) - 1))))).toNat 0 := by
  unfold pct
  rw [if_neg hne]
  by_cases h1 : ms.length = 1
  · rw [if_pos h1, h1]
    push_cast
    rw [show (1 : ℚ) - 1 = 0 by ring, mul_zero, pythonRound_zero]
    norm_num
  · rw [if_neg h1]

theorem clamp_toNat_le (n : ℕ) (hn : 1 ≤ n) (k : ℤ) :
    (max 0 (min ((n : ℤ) - 1) k)).toNat ≤ n - 1 := by
  omega

theorem clamp_toNat_mono (n : ℕ) {k k' : ℤ} (h : k ≤ k') :
    (max 0 (min ((n : ℤ) - 1) k)).toNat ≤
      (max 0 (min ((n : ℤ) - 1) k')).toNat := by
  omega

/-- C9: for every non-empty delta collection the computed StatsSummary
satisfies min ≤ p50 ≤ p90 ≤ p99 ≤ max. -/
theorem percentile_monotonic :
    ∀ vals : List ℤ, vals ≠ [] →
      ∃ s, stats_ms vals = some s ∧
        s.min_ms ≤ s.p50_ms ∧ s.p50_ms ≤ s.p90_ms ∧
        s.p90_ms ≤ s.p99_ms ∧ s.p99_ms ≤ s.max_ms := by
  intro vals hne
  set M := (vals.map ns_to_ms).mergeSort (fun a b => decide (a ≤ b)) with hM
  have hs : stats_ms vals = some
      { count := M.length, avg_ms := M.sum / (M.length : ℚ),
        p50_ms := pct M 50, p90_ms := pct M 90, p99_ms := pct M 99,
        min_ms := M.getD 0 0, max_ms := M.getD (M.length - 1) 0 } := by
    rw [hM]
    unfold stats_ms
    rw [if_neg hne]
  refine ⟨_, hs, ?_⟩
  · dsimp only
    have hsort : M.Sorted (· ≤ ·) := mergeSort_rat_sorted _
    have hlenM : M.length = vals.length := by
      rw [hM, List.length_mergeSort, List.length_map]
    have hlen : 1 ≤ M.length := by
      rw [hlenM]
      exact List.length_pos.mpr hne
    have hMne : M ≠ [] := List.ne_nil_of_length_pos (lt_of_lt_of_le one_pos hlen)
    have hq : (1 : ℚ) ≤ (M.length : ℚ) := by exact_mod_cast hlen
    have hsub : (0 : ℚ) ≤ (M.length : ℚ) - 1 := by linarith
    have h5090 : pythonRound ((50 : ℚ) / 100 * ((M.length : ℚ) - 1)) ≤
        pythonRound ((90 : ℚ) / 100 * ((M.length : ℚ) - 1)) :=
      pythonRound_mono (mul_le_mul_of_nonneg_right (by norm_num) hsub)
    have h9099 : pythonRound ((90 : ℚ) / 100 * ((M.length : ℚ) - 1)) ≤
        pythonRound ((99 : ℚ) / 100 * ((M.length : ℚ) - 1)) :=
      pythonRound_mono (mul_le_mul_of_nonneg_right (by norm_num) hsub)
    rw [pct_eq_getD M hMne 50, pct_eq_getD M hMne 90, pct_eq_getD M hMne 99]
    have hlt : ∀ k : ℤ, (max 0 (min ((M.length : ℤ) - 1) k)).toNat < M.length :=
      fun k => lt_of_le_of_lt (clamp_toNat_le M.length hlen k)
        (Nat.sub_lt (lt_of_lt_of_le one_pos hlen) one_pos)
    refine ⟨?_, ?_, ?_, ?_⟩
    · exact sorted_getD_le M hsort 0 _ (Nat.zero_le _) (hlt _)
    · exact sorted_getD_le M hsort _ _ (clamp_toNat_mono M.length h5090) (hlt _)
    · exact sorted_getD_le M hsort _ _ (clamp_toNat_mono M.length h9099) (hlt _)
    · exact sorted_getD_le M hsort _ _ (clamp_toNat_le M.length hlen _)
        (Nat.sub_lt (lt_of_lt_of_le one_pos hlen) one_pos)

/-- C9 (witness): the theorem applied at the one-element collection `[1]`. -/
theorem percentile_monotonic_witness :
    ([(1 : ℤ)] ≠ []) ∧
    ∃ s, stats_ms [(1 : ℤ)] = some s ∧
      s.min_ms ≤ s.p50_ms ∧ s.p50_ms ≤ s.p90_ms ∧
      s.p90_ms ≤ s.p99_ms ∧ s.p99_ms ≤ s.max_ms :=
  ⟨by decide, percentile_monotonic [(1 : ℤ)] (by decide)⟩

/-- C3: the percentile of a non-empty collection is the element of the sorted
millisecond values at index `round(p/100 * (n-1))` clamped to `[0, n-1]`
(`round` being the source's ties-to-even `int(round(...))`), stated against
any sorted permutation of the converted values; in particular for `n = 1`
every percentile equals the single value. -/
theorem nearest_rank_percentile :
    ∀ (vals : List ℤ) (ms' : List ℚ), vals ≠ [] →
      ms'.Perm (vals.map ns_to_ms) → ms'.Sorted (· ≤ ·) →
      ∃ s, stats_ms vals = some s ∧
        s.p50_ms = ms'.getD (max 0 (min ((vals.length : ℤ) - 1)
          (pythonRound ((50 : ℚ) / 100 * ((vals.length : ℚ) - 1))))).toNat 0 ∧
        s.p90_ms = ms'.getD (max 0 (min ((vals.length : ℤ) - 1)
          (pythonRound ((90 : ℚ) / 100 * ((vals.length : ℚ) - 1))))).toNat 0 ∧
        s.p99_ms = ms'.getD (max 0 (min ((vals.length : ℤ) - 1)
          (pythonRound ((99 : ℚ) / 100 * ((vals.length : ℚ) - 1))))).toNat 0 ∧
        (∀ x : ℤ, vals = [x] →
          s.p50_ms = ns_to_ms x ∧ s.p90_ms = ns_to_ms x ∧
          s.p99_ms = ns_to_ms x) := by
  intro vals ms' hne hperm hsort
  set M := (vals.map ns_to_ms).mergeSort (fun a b => decide (a ≤ b)) with hM
  have hs : stats_ms vals = some
      { count := M.length, avg_ms := M.sum / (M.length : ℚ),
        p50_ms := pct M 50, p90_ms := pct M 90, p99_ms := pct M 99,
        min_ms := M.getD 0 0, max_ms := M.getD (M.length - 1) 0 } := by
    rw [hM]
    unfold stats_ms
    rw [if_neg hne]
  have hlenM : M.length = vals.length := by
    rw [hM, List.length_mergeSort, List.length_map]
  have hMne : M ≠ [] := by
    intro h
    apply hne
    rw [← List.length_eq_zero, ← hlenM, h]
    rfl
  have hMs : ms' = M :=
    List.eq_of_perm_of_sorted
      (hperm.trans (List.mergeSort_perm (vals.map ns_to_ms) _).symm)
      hsort (mergeSort_rat_sorted _)
  refine ⟨_, hs, ?_, ?_, ?_, ?_⟩
  · dsimp only
    rw [pct_eq_getD M hMne 50, hMs, hlenM]
  · dsimp only
    rw [pct_eq_getD M hMne 90, hMs, hlenM]
  · dsimp only
    rw [pct_eq_getD M hMne 99, hMs, hlenM]
  · intro x hx
    have hMx : M = [ns_to_ms x] := by
      rw [hM, hx, List.map_cons, List.map_nil, mergeSort_single]
    refine ⟨?_, ?_, ?_⟩ <;>
      (dsimp only; rw [hMx]; simp [pct])

/-- C3 (witness): the theorem applied at the one-element collection `[2]`
with its sorted millisecond image. -/
theorem nearest_rank_percentile_witness :
    ([(2 : ℤ)] ≠ []) ∧
    ∃ s, stats_ms [(2 : ℤ)] = some s ∧
      s.p50_ms = [ns_to_ms 2].getD (max 0 (min (((1 : ℕ) : ℤ) - 1)
        (pythonRound ((50 : ℚ) / 100 * (((1 : ℕ) : ℚ) - 1))))).toNat 0 ∧
      s.p90_ms = [ns_to_ms 2].getD (max 0 (min (((1 : ℕ) : ℤ) - 1)
        (pythonRound ((90 : ℚ) / 100 * (((1 : ℕ) : ℚ) - 1))))).toNat 0 ∧
      s.p99_ms = [ns_to_ms 2].getD (max 0 (min (((1 : ℕ) : ℤ) - 1)
        (pythonRound ((99 : ℚ) / 100 * (((1 : ℕ) : ℚ) - 1))))).toNat 0 ∧
      (∀ x : ℤ, [(2 : ℤ)] = [x] →
        s.p50_ms = ns_to_ms x ∧ s.p90_ms = ns_to_ms x ∧
        s.p99_ms = ns_to_ms x) :=
  ⟨by decide,
   nearest_rank_percentile [(2 : ℤ)] [ns_to_ms 2] (by decide)
     (by simp) (List.sorted_singleton _)⟩

/-! ### Group ranking (C5) -/

theorem charListLt_nil_right : ∀ a : List Char, charListLt a [] = false := by
  intro a
  cases a <;> rfl

theorem charListLt_asymm :
    ∀ a b : List Char, charListLt a b = true → charListLt b a = false := by
  intro a
  induction a with
  | nil =>
    intro b _
    exact charListLt_nil_right b
  | cons ca as ih =>
    intro b hab
    cases b with
    | nil => rw [charListLt_nil_right] at hab; cases hab
    | cons cb bs =>
      unfold charListLt at hab ⊢
      by_cases h1 : ca < cb
      · rw [if_neg (asymm h1), if_pos h1]
      · rw [if_neg h1] at hab
        by_cases h2 : cb < ca
        · rw [if_pos h2] at hab; cases hab
        · rw [if_neg h2] at hab
          rw [if_neg h2, if_neg h1]
          exact ih bs hab

theorem charListLt_trichotomy :
    ∀ a b : List Char,
      charListLt a b = true ∨ a = b ∨ charListLt b a = true := by
  intro a
  induction a with
  | nil =>
    intro b
    cases b with
    | nil => exact Or.inr (Or.inl rfl)
    | cons cb bs => exact Or.inl rfl
  | cons ca as ih =>
    intro b
    cases b with
    | nil => exact Or.inr (Or.inr rfl)
    | cons cb bs =>
      rcases lt_trichotomy ca cb with h | h | h
      · exact Or.inl (by unfold charListLt; rw [if_pos h])
      · subst h
        rcases ih bs with h | h | h
        · exact Or.inl (by unfold charListLt; rw [if_neg (lt_irrefl ca), if_neg (lt_irrefl ca)]; exact h)
        · exact Or.inr (Or.inl (by rw [h]))
        · exact Or.inr (Or.inr (by unfold charListLt; rw [if_neg (lt_irrefl ca), if_neg (lt_irrefl ca)]; exact h))
      · exact Or.inr (Or.inr (by unfold charListLt; rw [if_pos h]))

theorem charListLt_trans :
    ∀ a b c : List Char, charListLt a b = true → charListLt b c = true →
      charListLt a c = true := by
  intro a
  induction a with
  | nil =>
    intro b c _ hbc
    cases c with
    | nil => rw [charListLt_nil_right] at hbc; cases hbc
    | cons cc cs => rfl
  | cons ca as ih =>
    intro b c hab hbc
    cases b with
    | nil => rw [charListLt_nil_right] at hab; cases hab
    | cons cb bs =>
      cases c with
      | nil => rw [charListLt_nil_right] at hbc; cases hbc
      | cons cc cs =>
        unfold charListLt at hab hbc ⊢
        by_cases h1 : ca < cb
        · rw [if_pos h1] at hab
          by_cases h2 : cb < cc
          · rw [if_pos (lt_trans h1 h2)]
          · rw [if_neg h2] at hbc
            by_cases h3 : cc < cb
            · rw [if_pos h3] at hbc; cases hbc
            · have hcc : cb = cc := le_antisymm (not_lt.mp h3) (not_lt.mp h2)
              rw [if_pos (hcc ▸ h1)]
        · rw [if_neg h1] at hab
          by_cases h2 : cb < ca
          · rw [if_pos h2] at hab; cases hab
          · rw [if_neg h2] at hab
            have hca : ca = cb := le_antisymm (not_lt.mp h2) (not_lt.mp h1)
            subst hca
            by_cases h3 : ca < cc
            · rw [if_pos h3]
            · rw [if_neg h3] at hbc ⊢
              by_cases h4 : cc < ca
              · rw [if_pos h4] at hbc; cases hbc
              · rw [if_neg h4] at hbc ⊢
                exact ih bs cs hab hbc

theorem strLe_total (s t : String) : strLe s t = true ∨ strLe t s = true := by
  unfold strLe strLt
  by_cases h : charListLt t.data s.data = true
  · right
    rw [charListLt_asymm t.data s.data h]
    rfl
  · left
    rw [Bool.not_eq_true] at h
    rw [h]
    rfl

theorem strLe_trans {s t u : String} (h1 : strLe s t = true)
    (h2 : strLe t u = true) : strLe s u = true := by
  unfold strLe strLt at h1 h2 ⊢
  rw [Bool.not_eq_true'] at h1 h2 ⊢
  by_contra hc
  rw [Bool.not_eq_false] at hc
  rcases charListLt_trichotomy s.data t.data with h | h | h
  · rw [charListLt_trans u.data s.data t.data hc h] at h2
    cases h2
  · rw [h] at hc
    rw [hc] at h2
    cases h2
  · rw [h] at h1
    cases h1

theorem strLe_antisymm {s t : String} (h1 : strLe s t = true)
    (h2 : strLe t s = true) : s = t := by
  unfold strLe strLt at h1 h2
  rw [Bool.not_eq_true'] at h1 h2
  rcases charListLt_trichotomy s.data t.data with h | h | h
  · rw [h] at h2; cases h2
  · exact String.ext h
  · rw [h] at h1; cases h1

theorem strLt_of_le_of_ne {s t : String} (h1 : strLe s t = true)
    (h2 : s ≠ t) : strLt s t = true := by
  unfold strLe strLt at h1
  unfold strLt
  rw [Bool.not_eq_true'] at h1
  rcases charListLt_trichotomy s.data t.data with h | h | h
  · exact h
  · exact absurd (String.ext h) h2
  · rw [h] at h1; cases h1

theorem stats_ms_single (x : ℤ) :
    stats_ms [x] = some ⟨1, ns_to_ms x, ns_to_ms x, ns_to_ms x, ns_to_ms x,
      ns_to_ms x, ns_to_ms x⟩ := by
  unfold stats_ms
  rw [if_neg (by simp)]
  rw [show (([x].map ns_to_ms).mergeSort (fun a b => decide (a ≤ b))) =
      [ns_to_ms x] by rw [List.map_cons, List.map_nil, mergeSort_single]]
  simp [pct, List.getD]

theorem rowLe_iff (a b : ℚ × String × StatsSummary) :
    rowLe a b = true ↔
      (b.1 < a.1 ∨ (a.1 = b.1 ∧ strLe a.2.1 b.2.1 = true)) := by
  unfold rowLe
  simp [Bool.or_eq_true, Bool.and_eq_true, decide_eq_true_eq]

theorem rowLe_trans : ∀ a b c : ℚ × String × StatsSummary,
    rowLe a b = true → rowLe b c = true → rowLe a c = true := by
  intro a b c hab hbc
  rw [rowLe_iff] at hab hbc ⊢
  rcases hab with h1 | ⟨he1, hl1⟩
  · rcases hbc with h2 | ⟨he2, hl2⟩
    · exact Or.inl (lt_trans h2 h1)
    · exact Or.inl (he2 ▸ h1)
  · rcases hbc with h2 | ⟨he2, hl2⟩
    · exact Or.inl (he1 ▸ h2)
    · exact Or.inr ⟨he1.trans he2, strLe_trans hl1 hl2⟩

theorem rowLe_total : ∀ a b : ℚ × String × StatsSummary,
    rowLe a b = true ∨ rowLe b a = true := by
  intro a b
  rcases lt_trichotomy a.1 b.1 with h | h | h
  · exact Or.inr ((rowLe_iff b a).mpr (Or.inl h))
  · rcases strLe_total a.2.1 b.2.1 with hl | hl
    · exact Or.inl ((rowLe_iff a b).mpr (Or.inr ⟨h, hl⟩))
    · exact Or.inr ((rowLe_iff b a).mpr (Or.inr ⟨h.symm, hl⟩))
  · exact Or.inl ((rowLe_iff a b).mpr (Or.inl h))

theorem mergeSort_row_sorted (l : List (ℚ × String × StatsSummary)) :
    (l.mergeSort rowLe).Pairwise (fun a b => rowLe a b = true) :=
  List.sorted_mergeSort rowLe_trans
    (fun a b => by rcases rowLe_total a b with h | h <;> simp [h]) l

theorem rowsOf_labels (per : List (String × List ℤ)) (sort_by : String)
    (hne : ∀ kv ∈ per, kv.2 ≠ []) :
    (rowsOf per sort_by).map (fun r => r.2.1) = per.map Prod.fst := by
  induction per with
  | nil => rfl
  | cons kv rest ih =>
    obtain ⟨k, ds⟩ := kv
    have hds : ds ≠ [] := hne (k, ds) (List.mem_cons_self _ _)
    have hsome : ∃ s, stats_ms ds = some s := by
      unfold stats_ms
      rw [if_neg hds]
      exact ⟨_, rfl⟩
    obtain ⟨s, hs⟩ := hsome
    unfold rowsOf
    rw [List.filterMap_cons]
    simp only [hs, Option.map_some', List.map_cons]
    rw [show List.filterMap
        (fun kv => (stats_ms kv.2).map fun s => (metricScore sort_by s, kv.1, s))
        rest = rowsOf rest sort_by from rfl,
      ih (fun kv h => hne kv (List.mem_cons_of_mem _ h))]

theorem sorted_perm_nodup_labels_eq :
    ∀ (l₁ l₂ : List (ℚ × String × StatsSummary)), l₁.Perm l₂ →
      l₁.Pairwise (fun a b => rowLe a b = true) →
      l₂.Pairwise (fun a b => rowLe a b = true) →
      (l₁.map (fun r => r.2.1)).Nodup → l₁ = l₂ := by
  intro l₁
  induction l₁ with
  | nil =>
    intro l₂ hp _ _ _
    exact (hp.symm.eq_nil).symm
  | cons a t₁ ih =>
    intro l₂ hp s₁ s₂ nd
    cases l₂ with
    | nil => exact absurd hp.eq_nil (by simp)
    | cons b t₂ =>
      by_cases hab : a = b
      · subst hab
        rw [ih t₂ hp.cons_inv s₁.of_cons s₂.of_cons
          (by rw [List.map_cons] at nd; exact (List.nodup_cons.mp nd).2)]
      · have hbmem : b ∈ t₁ := by
          rcases List.mem_cons.mp (hp.mem_iff.mpr (List.mem_cons_self b t₂))
            with h | h
          · exact absurd h.symm hab
          · exact h
        have hamem : a ∈ t₂ := by
          rcases List.mem_cons.mp (hp.mem_iff.mp (List.mem_cons_self a t₁))
            with h | h
          · exact absurd h hab
          · exact h
        have rab := List.rel_of_pairwise_cons s₁ hbmem
        have rba := List.rel_of_pairwise_cons s₂ hamem
        rw [rowLe_iff] at rab rba
        have hlab : a.2.1 = b.2.1 := by
          rcases rab with h1 | ⟨he1, hl1⟩
          · rcases rba with h2 | ⟨he2, hl2⟩
            · exact absurd (lt_trans h1 h2) (lt_irrefl _)
            · exact absurd h1 (by rw [he2]; exact lt_irrefl _)
          · rcases rba with h2 | ⟨he2, hl2⟩
            · exact absurd h2 (by rw [he1]; exact lt_irrefl _)
            · exact strLe_antisymm hl1 hl2
        rw [List.map_cons] at nd
        have hndc := (List.nodup_cons.mp nd).1
        have hmem : b.2.1 ∈ t₁.map (fun r => r.2.1) :=
          List.mem_map_of_mem _ hbmem
        rw [← hlab] at hmem
        exact absurd hmem hndc

/-- C5: group ranking summarizes each (non-empty) group, orders rows strictly
descending by the chosen metric with ties broken by group label ascending,
truncates to the given limit, and is invariant under permutation of the input
mapping's iteration order. -/
theorem rank_groups_spec :
    ∀ (per per' : List (String × List ℤ)) (sort_by : String) (limit : ℕ),
      (per.map Prod.fst).Nodup → (∀ kv ∈ per, kv.2 ≠ []) → per'.Perm per →
      (rank_groups per sort_by limit).length = min limit per.length ∧
      (rank_groups per sort_by limit).Pairwise
        (fun a b => b.1 < a.1 ∨ (a.1 = b.1 ∧ strLt a.2.1 b.2.1 = true)) ∧
      rank_groups per' sort_by limit = rank_groups per sort_by limit ∧
      (rank_groups [("a", [10000000]), ("b", [40000000]), ("c", [25000000])]
          "avg" 10).map (fun r => r.2.1) = ["b", "c", "a"] := by
  intro per per' sort_by limit hnd hne hperm
  have hrowlen : (rowsOf per sort_by).length = per.length := by
    have h := congrArg List.length (rowsOf_labels per sort_by hne)
    simpa using h
  have hlabnd : ((rowsOf per sort_by).map (fun r => r.2.1)).Nodup := by
    rw [rowsOf_labels per sort_by hne]
    exact hnd
  refine ⟨?_, ?_, ?_, ?_⟩
  · unfold rank_groups
    rw [List.length_take, List.length_mergeSort, hrowlen]
  · unfold rank_groups
    apply List.Pairwise.sublist (List.take_sublist _ _)
    have h1 := mergeSort_row_sorted (rowsOf per sort_by)
    have hmsnd : (((rowsOf per sort_by).mergeSort rowLe).map
        (fun r => r.2.1)).Nodup :=
      (((List.mergeSort_perm (rowsOf per sort_by) rowLe).map
        (fun r => r.2.1)).nodup_iff).mpr hlabnd
    have h2 : ((rowsOf per sort_by).mergeSort rowLe).Pairwise
        (fun a b => a.2.1 ≠ b.2.1) := List.pairwise_map.mp hmsnd
    exact (List.pairwise_and_iff.mpr ⟨h1, h2⟩).imp
      (fun hab => by
        rcases (rowLe_iff _ _).mp hab.1 with h | ⟨heq, hsle⟩
        · exact Or.inl h
        · exact Or.inr ⟨heq, strLt_of_le_of_ne hsle hab.2⟩)
  · unfold rank_groups
    have hrowsperm : (rowsOf per' sort_by).Perm (rowsOf per sort_by) :=
      hperm.filterMap _
    have hsorteq : (rowsOf per' sort_by).mergeSort rowLe =
        (rowsOf per sort_by).mergeSort rowLe := by
      apply sorted_perm_nodup_labels_eq
      · exact (List.mergeSort_perm _ rowLe).trans
          (hrowsperm.trans (List.mergeSort_perm _ rowLe).symm)
      · exact mergeSort_row_sorted _
      · exact mergeSort_row_sorted _
      · exact ((((List.mergeSort_perm _ rowLe).trans hrowsperm).map
          (fun r => r.2.1)).nodup_iff).mpr hlabnd
    rw [hsorteq]
  · have h10 : stats_ms [(10000000 : ℤ)] =
        some ⟨1, 10, 10, 10, 10, 10, 10⟩ := by
      rw [stats_ms_single, show ns_to_ms 10000000 = 10 by
        unfold ns_to_ms; norm_num]
    have h40 : stats_ms [(40000000 : ℤ)] =
        some ⟨1, 40, 40, 40, 40, 40, 40⟩ := by
      rw [stats_ms_single, show ns_to_ms 40000000 = 40 by
        unfold ns_to_ms; norm_num]
    have h25 : stats_ms [(25000000 : ℤ)] =
        some ⟨1, 25, 25, 25, 25, 25, 25⟩ := by
      rw [stats_ms_single, show ns_to_ms 25000000 = 25 by
        unfold ns_to_ms; norm_num]
    have hrows : rowsOf
        [("a", [10000000]), ("b", [40000000]), ("c", [25000000])] "avg" =
        [((10 : ℚ), "a", ⟨1, 10, 10, 10, 10, 10, 10⟩),
         ((40 : ℚ), "b", ⟨1, 40, 40, 40, 40, 40, 40⟩),
         ((25 : ℚ), "c", ⟨1, 25, 25, 25, 25, 25, 25⟩)] := by
      unfold rowsOf
      rw [List.filterMap_cons, List.filterMap_cons, List.filterMap_cons,
        List.filterMap_nil]
      simp only [h10, h40, h25, Option.map_some']
      rfl
    have hS : List.Pairwise (fun a b => rowLe a b = true)
        [((40 : ℚ), "b", (⟨1, 40, 40, 40, 40, 40, 40⟩ : StatsSummary)),
         ((25 : ℚ), "c", ⟨1, 25, 25, 25, 25, 25, 25⟩),
         ((10 : ℚ), "a", ⟨1, 10, 10, 10, 10, 10, 10⟩)] := by
      rw [List.pairwise_cons]
      refine ⟨?_, ?_⟩
      · intro b hb
        rcases List.mem_cons.mp hb with h | h
        · rw [h]
          exact (rowLe_iff _ _).mpr (Or.inl (by norm_num))
        · simp only [List.mem_singleton] at h
          rw [h]
          exact (rowLe_iff _ _).mpr (Or.inl (by norm_num))
      · rw [List.pairwise_cons]
        refine ⟨?_, List.pairwise_singleton _ _⟩
        intro b hb
        simp only [List.mem_singleton] at hb
        rw [hb]
        exact (rowLe_iff _ _).mpr (Or.inl (by norm_num))
    have hpermRS :
        ([((10 : ℚ), "a", (⟨1, 10, 10, 10, 10, 10, 10⟩ : StatsSummary)),
          ((40 : ℚ), "b", ⟨1, 40, 40, 40, 40, 40, 40⟩),
          ((25 : ℚ), "c", ⟨1, 25, 25, 25, 25, 25, 25⟩)]).Perm
        [((40 : ℚ), "b", ⟨1, 40, 40, 40, 40, 40, 40⟩),
         ((25 : ℚ), "c", ⟨1, 25, 25, 25, 25, 25, 25⟩),
         ((10 : ℚ), "a", ⟨1, 10, 10, 10, 10, 10, 10⟩)] :=
      (List.Perm.swap _ _ _).trans (List.Perm.cons _ (List.Perm.swap _ _ _))
    have hndR :
        (([((10 : ℚ), "a", (⟨1, 10, 10, 10, 10, 10, 10⟩ : StatsSummary)),
           ((40 : ℚ), "b", ⟨1, 40, 40, 40, 40, 40, 40⟩),
           ((25 : ℚ), "c", ⟨1, 25, 25, 25, 25, 25, 25⟩)]).map
          (fun r => r.2.1)).Nodup := by
      rw [List.map_cons, List.map_cons, List.map_cons, List.map_nil]
      decide
    have hms :
        ([((10 : ℚ), "a", (⟨1, 10, 10, 10, 10, 10, 10⟩ : StatsSummary)),
          ((40 : ℚ), "b", ⟨1, 40, 40, 40, 40, 40, 40⟩),
          ((25 : ℚ), "c", ⟨1, 25, 25, 25, 25, 25, 25⟩)]).mergeSort rowLe =
        [((40 : ℚ), "b", ⟨1, 40, 40, 40, 40, 40, 40⟩),
         ((25 : ℚ), "c", ⟨1, 25, 25, 25, 25, 25, 25⟩),
         ((10 : ℚ), "a", ⟨1, 10, 10, 10, 10, 10, 10⟩)] :=
      sorted_perm_nodup_labels_eq _ _
        ((List.mergeSort_perm _ _).trans hpermRS)
        (mergeSort_row_sorted _) hS
        ((((List.mergeSort_perm _ rowLe).map (fun r => r.2.1)).nodup_iff).mpr
          hndR)
    unfold rank_groups
    rw [hrows, hms]
    rfl

/-- C5 (witness): the theorem at the spec's three-peer scenario (mean delays
10ms, 40ms, 25ms) — the hypotheses hold and the ranking is independent of the
iteration order of the mapping. -/
theorem rank_groups_spec_witness :
    (([("a", [10000000]), ("b", [40000000]), ("c", [25000000])] :
        List (String × List ℤ)).map Prod.fst).Nodup ∧
    rank_groups [("b", [40000000]), ("c", [25000000]), ("a", [10000000])]
        "avg" 10 =
      rank_groups [("a", [10000000]), ("b", [40000000]), ("c", [25000000])]
        "avg" 10 :=
  ⟨by decide,
   (rank_groups_spec
      [("a", [10000000]), ("b", [40000000]), ("c", [25000000])]
      [("b", [40000000]), ("c", [25000000]), ("a", [10000000])]
      "avg" 10 (by decide) (by decide) (by decide)).2.2.1⟩
